import Mathlib

/-!
Shallow embedding of the hackmoney_2026 order-routing backend.

Numeric model: Python floats are idealised as exact rationals (`ℚ`);
`round(x, n)` is modelled as `roundTo n x` using Mathlib's `round`
(nearest integer, halves up).  Python's stable `list.sort(key=...)` is
modelled by `sortStable`, a structurally recursive stable insertion
sort: a stable sort's output is uniquely determined by the list and the
total preorder, so this is extensionally the same function.

Sources embedded:
  src/backend/utils/utils.py   (build_pooled, find_optimal_route)
  src/utils/utils.py           (the older copy of find_optimal_route)
  src/relayer/adapters/polymarket.py (get_orderbook, get_best_offer)
  src/backend/adapters/limitless.py  (the yes/no book reflection)
  src/backend/main.py          (poll_orders tick, kill_order, _bridge_back)
-/

/-- `round(x, d)` of Python, on exact rationals. -/
def roundTo (d : ℕ) (x : ℚ) : ℚ := (round (x * 10 ^ d) : ℚ) / 10 ^ d

/-- One raw orderbook level as the dicts `{price, size, price_cents}`. -/
structure RawLevel where
  price : ℚ
  size : ℚ
  price_cents : ℚ
deriving DecidableEq

/-- A venue book dict `{platform, asks, bids}`; `hasError` models the
presence of an `"error"` key (checked by `build_pooled`). -/
structure Book where
  platform : String
  hasError : Bool
  asks : List RawLevel
  bids : List RawLevel
deriving DecidableEq

inductive Side where
  | asks
  | bids
deriving DecidableEq

def Book.sideOf (b : Book) : Side → List RawLevel
  | Side.asks => b.asks
  | Side.bids => b.bids

/-- Stable insertion into a sorted list: an element goes before the first
element it is `le`-below-or-equal, hence before equal keys that came later. -/
def insertL (le : α → α → Bool) (x : α) : List α → List α
  | [] => [x]
  | y :: ys => if le x y then x :: y :: ys else y :: insertL le x ys

/-- Stable sort (model of Python `list.sort`). -/
def sortStable (le : α → α → Bool) : List α → List α
  | [] => []
  | x :: xs => insertL le x (sortStable le xs)

/-- A price level tagged with its source platform (`find_optimal_route`
collection loop). -/
structure TLevel where
  platform : String
  price : ℚ
  size : ℚ
  price_cents : ℚ
deriving DecidableEq

def sideFor (direction : String) : Side :=
  if direction = "buy" then Side.asks else Side.bids

def collectLevels (books : List Book) (sk : Side) : List TLevel :=
  books.flatMap (fun b => (b.sideOf sk).map (fun lv => ⟨b.platform, lv.price, lv.size, lv.price_cents⟩))

/-- Sort comparator: ascending by price for buys, descending for sells
(`levels.sort(key=price, reverse=direction=="sell")`). -/
def leFor (direction : String) (a b : TLevel) : Bool :=
  if direction = "sell" then decide (b.price ≤ a.price) else decide (a.price ≤ b.price)

/-- `itertools.groupby` by price over a (sorted) list: split into maximal
consecutive runs of equal price, each paired with that price. -/
def groupAux : List TLevel → List (ℚ × List TLevel)
  | [] => []
  | x :: xs =>
    match groupAux xs with
    | [] => [(x.price, [x])]
    | (p, g) :: rest =>
      if x.price = p then (p, x :: g) :: rest
      else (x.price, [x]) :: (p, g) :: rest

/-- A fill record appended by `consume`. -/
structure Fill where
  platform : String
  price : ℚ
  price_cents : ℚ
  size : ℚ
  cost : ℚ
deriving DecidableEq

structure PlatStat where
  spent : ℚ
  qty : ℚ
deriving DecidableEq

/-- The mutable state of the greedy walk: `remaining`, `used_platforms`
(insertion-ordered, duplicate-free), `fills`, `per_platform`. -/
structure WalkState where
  remaining : ℚ
  used : List String
  fills : List Fill
  perPlatform : List (String × PlatStat)
deriving DecidableEq

def addUsed (p : String) (used : List String) : List String :=
  if p ∈ used then used else used ++ [p]

/-- `per_platform.setdefault` + accumulate, preserving dict insertion order. -/
def bumpPlat (p : String) (spend qty : ℚ) : List (String × PlatStat) → List (String × PlatStat)
  | [] => [(p, ⟨spend, qty⟩)]
  | (q, st) :: rest =>
    if q = p then (q, ⟨st.spent + spend, st.qty + qty⟩) :: rest
    else (q, st) :: bumpPlat p spend qty rest

/-- The `consume(lv)` closure of the backend `find_optimal_route` (the same
arithmetic appears inline in the older copy's loop body). -/
def consume (direction : String) (lv : TLevel) (st : WalkState) : WalkState :=
  if st.remaining ≤ 0 then st
  else
    let availableCost := lv.price * lv.size
    let spend := if direction = "buy" then min st.remaining availableCost
                 else min st.remaining lv.size * lv.price
    let qty := if direction = "buy" then
                 (if 0 < lv.price then min st.remaining availableCost / lv.price else 0)
               else min st.remaining lv.size
    if qty ≤ 0 then st
    else
      { remaining := st.remaining - (if direction = "buy" then spend else qty)
        used := addUsed lv.platform st.used
        fills := st.fills ++ [⟨lv.platform, lv.price, lv.price_cents, roundTo 4 qty, roundTo 4 spend⟩]
        perPlatform := bumpPlat lv.platform spend qty st.perPlatform }

def consumeList (direction : String) (lvs : List TLevel) (st : WalkState) : WalkState :=
  lvs.foldl (fun s lv => consume direction lv s) st

/-- `vol` accumulation at a price group: platform → summed `price*size`,
in first-appearance order. -/
def bumpVol (p : String) (v : ℚ) : List (String × ℚ) → List (String × ℚ)
  | [] => [(p, v)]
  | (q, w) :: rest => if q = p then (q, w + v) :: rest else (q, w) :: bumpVol p v rest

def buildVol (lvs : List TLevel) : List (String × ℚ) :=
  lvs.foldl (fun acc lv => bumpVol lv.platform (lv.price * lv.size) acc) []

/-- Python `max(vol, key=vol.get)`: first key attaining the maximal value. -/
def argmaxKey : List (String × ℚ) → String
  | [] => ""
  | e :: rest => (rest.foldl (fun best x => if best.2 < x.2 then x else best) e).1

/-- One equal-price group of the backend walk: consume already-used
platforms first, then (if budget remains) only the single new platform
with the largest aggregated notional at this price. -/
def processGroup (direction : String) (g : List TLevel) (st : WalkState) : WalkState :=
  let known := g.filter (fun lv => lv.platform ∈ st.used)
  let st1 := consumeList direction known st
  if 0 < st1.remaining then
    let nw := g.filter (fun lv => lv.platform ∉ st1.used)
    if nw = [] then st1
    else consumeList direction (nw.filter (fun lv => lv.platform = argmaxKey (buildVol nw))) st1
  else st1

def walkGroups (direction : String) : List (ℚ × List TLevel) → WalkState → WalkState
  | [], st => st
  | (_, g) :: gs, st =>
    if st.remaining ≤ 0 then st
    else walkGroups direction gs (processGroup direction g st)

def routeGroups (books : List Book) (direction : String) : List (ℚ × List TLevel) :=
  groupAux (sortStable (leFor direction) (collectLevels books (sideFor direction)))

def initState (budget : ℚ) : WalkState := ⟨budget, [], [], []⟩

def finalState (books : List Book) (budget : ℚ) (direction : String) : WalkState :=
  walkGroups direction (routeGroups books direction) (initState budget)

def sumSpent (st : WalkState) : ℚ := (st.perPlatform.map (fun e => e.2.spent)).sum

def sumQty (st : WalkState) : ℚ := (st.perPlatform.map (fun e => e.2.qty)).sum

structure PlatReport where
  spent : ℚ
  qty : ℚ
  avg_price : ℚ
  avg_price_cents : ℚ
deriving DecidableEq

structure Route where
  direction : String
  budget : ℚ
  total_spent : ℚ
  total_qty : ℚ
  avg_price : ℚ
  avg_price_cents : ℚ
  unfilled : ℚ
  platforms_used : ℕ
  per_platform : List (String × PlatReport)
  fills : List Fill
deriving DecidableEq

/-- Build the returned route dict from the finished walk state. -/
def mkRoute (budget : ℚ) (direction : String) (st : WalkState) : Route :=
  let totalSpent := sumSpent st
  let totalQty := sumQty st
  let avg := if 0 < totalQty then totalSpent / totalQty else 0
  { direction := direction
    budget := budget
    total_spent := roundTo 4 totalSpent
    total_qty := roundTo 4 totalQty
    avg_price := roundTo 6 avg
    avg_price_cents := roundTo 2 (avg * 100)
    unfilled := roundTo 4 (max st.remaining 0)
    platforms_used := st.perPlatform.length
    per_platform := st.perPlatform.map (fun e =>
      let avgP := if 0 < e.2.qty then e.2.spent / e.2.qty else 0
      (e.1, ⟨roundTo 4 e.2.spent, roundTo 4 e.2.qty, roundTo 6 avgP, roundTo 2 (avgP * 100)⟩))
    fills := st.fills }

/-- `find_optimal_route` of src/backend/utils/utils.py. -/
def findOptimalRoute (books : List Book) (budget : ℚ) (direction : String) :
    Except String Route :=
  if budget ≤ 0 then Except.error "Budget must be > 0"
  else if collectLevels books (sideFor direction) = [] then
    Except.error "No liquidity available"
  else Except.ok (mkRoute budget direction (finalState books budget direction))

/-- Lexicographic code-point comparison of char lists (Python string `<`). -/
def charListLt : List Char → List Char → Bool
  | [], [] => false
  | [], _ :: _ => true
  | _ :: _, [] => false
  | c :: cs, d :: ds => if c < d then true else if d < c then false else charListLt cs ds

/-- Python string `<` on code points. -/
def pyStrLt (a b : String) : Bool := charListLt a.data b.data

/-- The older copy's within-group sort key
`(platform not in used_platforms, platform)` (Python tuple order). -/
def legacyLe (used : List String) (a b : TLevel) : Bool :=
  let ra : ℕ := if a.platform ∈ used then 0 else 1
  let rb : ℕ := if b.platform ∈ used then 0 else 1
  decide (ra < rb) || (decide (ra = rb) && !pyStrLt b.platform a.platform)

/-- The walk of src/utils/utils.py: sort each group used-first then by
platform name, and consume linearly through the whole group. -/
def legacyWalk (direction : String) : List (ℚ × List TLevel) → WalkState → WalkState
  | [], st => st
  | (_, g) :: gs, st =>
    if st.remaining ≤ 0 then st
    else legacyWalk direction gs (consumeList direction (sortStable (legacyLe st.used) g) st)

def legacyFinalState (books : List Book) (budget : ℚ) (direction : String) : WalkState :=
  legacyWalk direction (routeGroups books direction) (initState budget)

/-- `find_optimal_route` of src/utils/utils.py. -/
def findOptimalRouteLegacy (books : List Book) (budget : ℚ) (direction : String) :
    Except String Route :=
  if budget ≤ 0 then Except.error "Budget must be > 0"
  else if collectLevels books (sideFor direction) = [] then
    Except.error "No liquidity available"
  else Except.ok (mkRoute budget direction (legacyFinalState books budget direction))

/-- An emitted pooled level of the backend `build_pooled`. -/
structure PoolLevel where
  price : ℚ
  size : ℚ
  total : ℚ
  price_cents : ℚ
  cumsum : ℚ
deriving DecidableEq

/-- Bucket key of a level: `round(price_cents * 10)`. -/
def bucketKey (lv : RawLevel) : ℤ := round (lv.price_cents * 10)

/-- Value of `grid[k]` after the accumulation loops of `build_pooled`:
the sizes of all levels (of non-error books, on the chosen side) whose
bucket is `k`, summed.  The loop only touches keys 1..999; `gridVal` is
only ever read at such keys below. -/
def gridVal (books : List Book) (sk : Side) (k : ℤ) : ℚ :=
  ((books.filter (fun b => !b.hasError)).map (fun b =>
    (((b.sideOf sk).filter (fun lv => bucketKey lv = k)).map (fun lv => lv.size)).sum)).sum

/-- The emission loop of `build_pooled`: walk the keys in ascending
order carrying the running `cumsum`, emitting nonempty buckets. -/
def pooledGo (books : List Book) (sk : Side) : List ℤ → ℚ → List PoolLevel
  | [], _ => []
  | k :: ks, c =>
    let g := gridVal books sk k
    if 0 < g then
      let price : ℚ := (k : ℚ) / 10
      let priceDec := price / 100
      let size := roundTo 2 g
      let total := roundTo 2 (priceDec * size)
      ⟨roundTo 4 priceDec, size, total, roundTo 1 price, roundTo 2 (c + total)⟩ ::
        pooledGo books sk ks (c + total)
    else pooledGo books sk ks c

def gridKeys : List ℤ := (List.range 999).map (fun (i : ℕ) => (i : ℤ) + 1)

/-- `build_pooled` of src/backend/utils/utils.py. -/
def buildPooled (books : List Book) (sk : Side) : List PoolLevel :=
  pooledGo books sk gridKeys 0

/-- A `{price, size}` level of the relayer Polymarket adapter. -/
structure PMLevel where
  price : ℚ
  size : ℚ
deriving DecidableEq

structure PMBook where
  bids : List PMLevel
  asks : List PMLevel
deriving DecidableEq

/-- `get_orderbook` of src/relayer/adapters/polymarket.py: bids sorted
descending by price, asks ascending. -/
def pmGetOrderbook (rawBids rawAsks : List PMLevel) : PMBook :=
  { bids := sortStable (fun a b => decide (b.price ≤ a.price)) rawBids
    asks := sortStable (fun a b => decide (a.price ≤ b.price)) rawAsks }

structure BestOffer where
  price : ℚ
  size : ℚ
  side : String
deriving DecidableEq

/-- Python `str.upper()` (ASCII, as used for the side strings). -/
def pyUpper (s : String) : String := ⟨s.data.map Char.toUpper⟩

/-- `get_best_offer` of src/relayer/adapters/polymarket.py. -/
def pmGetBestOffer (rawBids rawAsks : List PMLevel) (side : String) : BestOffer :=
  let book := pmGetOrderbook rawBids rawAsks
  if pyUpper side = "BUY" then
    match book.asks with
    | a :: _ => ⟨a.price, a.size, "BUY"⟩
    | [] => ⟨0, 0, "BUY"⟩
  else
    match book.bids with
    | b :: _ => ⟨b.price, b.size, "SELL"⟩
    | [] => ⟨0, 0, "SELL"⟩

/-- Price reflection of one side (src/backend/adapters/limitless.py,
`side == "no"` branch): `price := 1 - price`, size unchanged. -/
def reflectSide (lvs : List PMLevel) : List PMLevel :=
  lvs.map (fun a => ⟨1 - a.price, a.size⟩)

/-- The whole-book reflection: the synthesized "no" bids come from the
"yes" asks and vice versa. -/
def reflectBook (x : List PMLevel × List PMLevel) : List PMLevel × List PMLevel :=
  (reflectSide x.2, reflectSide x.1)

/-- `PLATFORM_DECIMALS.get(p, 6)` of src/backend/main.py. -/
def platformDecimals (p : String) : ℕ :=
  if p = "polymarket" then 6 else if p = "opinion" then 18 else if p = "limitless" then 6 else 6

/-- `PLATFORM_CHAIN.get(p, 137)` of src/backend/main.py. -/
def platformChain (p : String) : ℤ :=
  if p = "polymarket" then 137 else if p = "opinion" then 56 else if p = "limitless" then 8453 else 137

/-- Result of `_bridge_back`: an `{"error": s}` dict, or a
`{"bridge_tx", "amount"[, "direct"]}` dict (`direct = false` when the
key is absent). -/
inductive BBOut where
  | err (s : String)
  | ok (tx : String) (amount : ℤ) (direct : Bool)
deriving DecidableEq

/-- The external world seen by one `_bridge_back` call: adapter
availability, transfer / receipt-wait outcomes (`Except` = raised), the
fallback balance probe, and the LiFi quote + submission outcome. -/
structure BBEnv where
  adapterOk : Bool
  sameChainTransfer : Except String String
  hasBalanceFn : Bool
  actualBal : ℤ
  fallbackTransfer : Except String String
  lifiHasTxReq : Bool
  lifiBlobStr : String
  chainSubmit : Except String (String × Bool)

/-- `int(math.floor(balance / floor_factor) * floor_factor)`: the bridge
amount floored to two decimal places of the platform stablecoin. -/
def bbFloorAmount (platform : String) (balance : ℤ) : ℤ :=
  let floorFactor : ℤ := 10 ^ (platformDecimals platform - 2)
  ⌊(balance : ℚ) / (floorFactor : ℚ)⌋ * floorFactor

/-- `_bridge_back` of src/backend/main.py (lines 1071-1212), as a function
of the order's platform, destination chain and settled proceeds. -/
def bridgeBack (platform : String) (toChain : ℤ) (proceeds : ℤ) (env : BBEnv) : BBOut :=
  if !env.adapterOk then BBOut.err (platform ++ " adapter not configured")
  else if proceeds ≤ 0 then BBOut.err "no sell proceeds to bridge"
  else if platformChain platform = toChain then
    match env.sameChainTransfer with
    | Except.ok tx => BBOut.ok tx proceeds false
    | Except.error e => BBOut.err e
  else
    let decimals := platformDecimals platform
    let amountRaw : ℤ := bbFloorAmount platform proceeds
    let minAmount : ℤ := 10 ^ decimals
    if amountRaw < minAmount then
      let actualBal := if env.hasBalanceFn then env.actualBal else proceeds
      if actualBal < proceeds then BBOut.err "insufficient balance for fallback"
      else
        match env.fallbackTransfer with
        | Except.ok tx => BBOut.ok tx proceeds true
        | Except.error e => BBOut.err ("fallback transfer failed: " ++ e)
    else if !env.lifiHasTxReq then BBOut.err ("LiFi quote failed: " ++ env.lifiBlobStr)
    else
      match env.chainSubmit with
      | Except.error e => BBOut.err e
      | Except.ok (h, okFlag) =>
        if okFlag then BBOut.ok h amountRaw false
        else BBOut.err ("bridge tx reverted: " ++ h)

/-- A LiFi status-poll answer: `DONE`, `FAILED`, or anything else. -/
inductive LStat where
  | done
  | failed
  | other
deriving DecidableEq

/-- One entry of the order's `bridges` dict. -/
structure BEntry where
  bstatus : String
  hasTx : Bool
deriving DecidableEq

/-- The order fields read or written by `poll_orders` / `kill_order`.
`trade_retries` is an `Option` because the code distinguishes
`"trade_retries" not in o`; the other two counters are read with a
`.get(..., 0)` default and modelled as plain naturals. -/
structure Order where
  status : String
  direction : String
  platform : String
  to_chain : ℤ
  bridges : Option (List BEntry)
  hasBridgeTx : Bool
  hasTxHash : Bool
  trade_retries : Option ℕ
  settle_retries : ℕ
  bridge_retries : ℕ
  trade_error : Option String
  bridge_error : Option String
  errorMsg : Option String
  trade_results : Option String
  transfer_results : Option String
  settle_results : Option String
  bridge_back_tx : Option String
  bridge_back_amount : Option ℤ
  receiving_tx : Option String
  receiving_chain : Option ℤ
deriving DecidableEq

/-- The external responses one tick of `poll_orders` can observe for one
order.  `poll i = none` models the i-th LiFi status call raising. -/
structure Env where
  poll : ℕ → Option LStat
  recvTx : Option String
  recvChain : Option ℤ
  tradeExn : Option String
  tradeBlob : String
  tradeAllOk : Bool
  tradeErrStr : String
  settleExn : Bool
  settleDone : Bool
  settleTransfers : String
  settleBlob : String
  sellExn : Option String
  sellBlob : String
  sellErr : Option String
  bridgeExn : Option String
  bridgeRes : BBOut

/-- The multi-bridge poll loop of the `sent` branch.  Returns `none` when
a poll raises (the whole `try` aborts and, since `changed` is not set,
nothing of the order is persisted); otherwise the updated entries plus
the `all_done` and `any_failed` flags. -/
def pollBridges (env : Env) : List BEntry → ℕ → Option (List BEntry × Bool × Bool)
  | [], _ => some ([], true, false)
  | e :: rest, i =>
    if e.bstatus = "done" then
      match pollBridges env rest i with
      | none => none
      | some (rs, ad, af) => some (e :: rs, ad, af)
    else if !e.hasTx then
      match pollBridges env rest i with
      | none => none
      | some (rs, ad, af) => some (e :: rs, ad, af)
    else
      match env.poll i with
      | none => none
      | some LStat.done =>
        match pollBridges env rest (i + 1) with
        | none => none
        | some (rs, ad, af) => some ({ e with bstatus := "done" } :: rs, ad, af)
      | some LStat.failed =>
        match pollBridges env rest (i + 1) with
        | none => none
        | some (rs, ad, _) => some ({ e with bstatus := "failed" } :: rs, ad, true)
      | some LStat.other =>
        match pollBridges env rest (i + 1) with
        | none => none
        | some (rs, _, af) => some (e :: rs, false, af)

/-- One tick of `poll_orders` for a single order, in persisted-state
semantics: branches that mutate the in-memory dict without setting the
`changed` flag are not merged back to disk (the loop reloads orders each
tick and only saves orders in `changed_ids`), so they leave the order
unchanged here. -/
def tick (env : Env) (o : Order) : Order :=
  if o.status = "killed" then o
  else if o.status = "sent" then
    match o.bridges with
    | some (b :: bs) =>
      match pollBridges env (b :: bs) 0 with
      | none => o
      | some (updated, allDone, anyFailed) =>
        if anyFailed then
          { o with status := "failed", errorMsg := some "one or more bridges failed",
                   bridges := some updated }
        else if allDone then { o with status := "bridged", bridges := some updated }
        else o
    | _ =>
      if o.hasBridgeTx || o.hasTxHash then
        match env.poll 0 with
        | none => o
        | some LStat.done =>
          { o with status := "bridged", receiving_tx := env.recvTx,
                   receiving_chain := env.recvChain }
        | some LStat.failed => { o with status := "failed" }
        | some LStat.other => o
      else o
  else if (o.status = "bridged" ∨ o.status = "trade_failed") ∧ o.direction ≠ "sell" then
    let retries := o.trade_retries.getD 0
    if o.status = "trade_failed" ∧ (5 ≤ retries ∨ o.trade_retries = none) then o
    else
      match env.tradeExn with
      | some e =>
        { o with trade_retries := some (retries + 1), trade_error := some e,
                 status := if 5 ≤ retries + 1 then "trade_failed" else o.status }
      | none =>
        if env.tradeAllOk then
          { o with trade_results := some env.tradeBlob, status := "matched" }
        else
          { o with trade_results := some env.tradeBlob,
                   trade_retries := some (retries + 1),
                   trade_error := some env.tradeErrStr,
                   status := if 5 ≤ retries + 1 then "trade_failed" else o.status }
  else if o.status = "matched" ∧ o.direction ≠ "sell" then
    if env.settleExn then o
    else if env.settleDone then
      { o with transfer_results := some env.settleTransfers, status := "filled" }
    else if 10 ≤ o.settle_retries + 1 then
      { o with settle_retries := o.settle_retries + 1, status := "trade_failed",
               trade_error := some "settlement timeout" }
    else o
  else if (o.status = "shares_pulled" ∨ o.status = "trade_failed") ∧ o.direction = "sell" then
    let retries := o.trade_retries.getD 0
    if 5 ≤ retries ∨ (o.status = "trade_failed" ∧ o.trade_retries = none) then o
    else
      match env.sellExn with
      | some e =>
        { o with trade_retries := some (retries + 1), trade_error := some e,
                 status := if 5 ≤ retries + 1 then "trade_failed" else o.status }
      | none =>
        match env.sellErr with
        | some err =>
          { o with trade_results := some env.sellBlob,
                   trade_retries := some (retries + 1), trade_error := some err,
                   status := if 5 ≤ retries + 1 then "trade_failed" else o.status }
        | none => { o with trade_results := some env.sellBlob, status := "sell_matched" }
  else if o.status = "sell_matched" ∧ o.direction = "sell" then
    if env.settleExn then o
    else if env.settleDone then
      { o with settle_results := some env.settleBlob, status := "sell_settled" }
    else if 10 ≤ o.settle_retries + 1 then
      { o with settle_retries := o.settle_retries + 1, status := "trade_failed",
               trade_error := some "settlement timeout" }
    else o
  else if (o.status = "sell_settled" ∨ o.status = "bridge_failed") ∧ o.direction = "sell" then
    if 5 ≤ o.bridge_retries then o
    else
      match env.bridgeExn with
      | some e =>
        { o with bridge_retries := o.bridge_retries + 1, bridge_error := some e,
                 status := if 5 ≤ o.bridge_retries + 1 then "bridge_failed" else o.status }
      | none =>
        match env.bridgeRes with
        | BBOut.err e =>
          { o with bridge_retries := o.bridge_retries + 1, bridge_error := some e,
                   status := if 5 ≤ o.bridge_retries + 1 then "bridge_failed" else o.status }
        | BBOut.ok tx amt direct =>
          { o with bridge_back_tx := some tx, bridge_back_amount := some amt,
                   status := if direct ∨ platformChain o.platform = o.to_chain
                             then "completed" else "bridging_back" }
  else if o.status = "bridging_back" ∧ o.direction = "sell" then
    match o.bridge_back_tx with
    | some _ =>
      match env.poll 0 with
      | none => o
      | some LStat.done =>
        { o with receiving_tx := env.recvTx, receiving_chain := env.recvChain,
                 status := "completed" }
      | some LStat.failed => { o with status := "bridge_failed", bridge_retries := 0 }
      | some LStat.other => o
    | none => o
  else o

/-- `kill_order` of src/backend/main.py (lines 1456-1467): the mutation
applied to the matching order. -/
def killOrder (o : Order) : Order :=
  { o with status := "killed", trade_retries := some 99, bridge_retries := 99 }

/-! Concrete fixtures used by witnesses and counterexamples. -/

def fxBkAlpha : Book := ⟨"alpha", false, [⟨1/2, 10, 50⟩], []⟩

def fxBkBeta : Book := ⟨"beta", false, [⟨1/2, 10, 50⟩], []⟩

def fxBkSell : Book := ⟨"pm", false, [], [⟨1/2, 10, 50⟩]⟩

def fxBkZ : Book := ⟨"zzz", false, [⟨1/2, 10, 50⟩, ⟨3/5, 10, 60⟩], []⟩

def fxBkA2 : Book := ⟨"aaa", false, [⟨1/2, 10, 50⟩, ⟨3/5, 20, 60⟩], []⟩

def fxBkTiny : Book := ⟨"pm", false, [⟨1/2, 3/500, 50⟩], []⟩

/-- The two-level two-venue family of concrete scenario 6 (spec §8):
equal best-ask price and equal notional at that level on both venues,
arbitrary next-level sizes. -/
def fxC7Books (t1 t2 : ℚ) : List Book :=
  [⟨"zzz", false, [⟨1/2, 10, 50⟩, ⟨3/5, t1, 60⟩], []⟩,
   ⟨"aaa", false, [⟨1/2, 10, 50⟩, ⟨3/5, t2, 60⟩], []⟩]

def fxOrdSent : Order :=
  ⟨"sent", "buy", "limitless", 8453, none, true, false, none, 0, 0,
   none, none, none, none, none, none, none, none, none, none⟩

def fxOrdBridged : Order :=
  ⟨"bridged", "buy", "polymarket", 8453, none, true, false, some 4, 0, 0,
   none, none, none, none, none, none, none, none, none, none⟩

def fxOrdMatched : Order :=
  ⟨"matched", "buy", "polymarket", 8453, none, false, false, none, 3, 0,
   none, none, none, none, none, none, none, none, none, none⟩

def fxOrdKilled : Order :=
  ⟨"killed", "sell", "polymarket", 8453, none, false, false, some 2, 7, 1,
   none, none, none, none, none, none, none, none, none, none⟩

/-- An environment whose LiFi polls always answer a non-terminal status. -/
def fxEnvPending : Env :=
  ⟨fun _ => some LStat.other, none, none, none, "", false, "", false, false, "", "",
   none, "", none, none, BBOut.err ""⟩

/-- An environment whose trade execution reports a business error. -/
def fxEnvTradeFail : Env :=
  ⟨fun _ => some LStat.other, none, none, none, "blob", false, "boom", false, false, "", "",
   none, "", none, none, BBOut.err ""⟩

/-- A bridge-back environment where every transfer succeeds and the
adapter balance covers the proceeds. -/
def fxBBEnv : BBEnv :=
  ⟨true, Except.ok "0xsame", true, 400000, Except.ok "0xfallback", true, "",
   Except.ok ("0xbridge", true)⟩

def fxAsks : List PMLevel := [⟨3/10, 5⟩, ⟨1/5, 7⟩]

def fxBids : List PMLevel := [⟨2/5, 3⟩, ⟨9/20, 4⟩]

/-- Total notional (`price * size` summed) of platform `p` among `lvs`. -/
def notionalIn (lvs : List TLevel) (p : String) : ℚ :=
  ((lvs.filter (fun lv => lv.platform = p)).map (fun lv => lv.price * lv.size)).sum

/-- Sum of the values stored for key `p` in a `vol` association list. -/
def lookupVol (acc : List (String × ℚ)) (p : String) : ℚ :=
  ((acc.filter (fun e => e.1 = p)).map Prod.snd).sum

/-- The walk state just before the `i`-th price group is processed. -/
def stateAfter (books : List Book) (budget : ℚ) (d : String) (i : ℕ) : WalkState :=
  walkGroups d ((routeGroups books d).take i) (initState budget)

/-! Theorems. -/

theorem reflectSide_involutive (l : List PMLevel) : reflectSide (reflectSide l) = l := by
  induction l with
  | nil => rfl
  | cons a as ih =>
    obtain ⟨p, s⟩ := a
    simp only [reflectSide, List.map_cons] at ih ⊢
    rw [show (1 : ℚ) - (1 - p) = p from sub_sub_cancel 1 p]
    exact congrArg (List.cons _) ih

/-- C9: for a single-sided (yes-published) venue book the adapter
synthesizes the no side by `price := 1 - price` with size unchanged and
bids/asks swapped, and this reflection is an involution: applying it
twice to a (bids, asks) pair returns the original pair. -/
theorem claim_C9_reflect_involution (x : List PMLevel × List PMLevel) :
    reflectBook (reflectBook x) = x := by
  obtain ⟨b, a⟩ := x
  simp [reflectBook, reflectSide_involutive]

/-- C4 counterexample: `kill_order` sets only `trade_retries` and
`bridge_retries` to 99; on an order with `settle_retries = 3` the
settlement counter stays 3, which is not above its bound of 10 — so the
claim that the kill operation inflates all three counters above their
bounds is false. -/
theorem claim_C4_counterexample :
    (killOrder fxOrdMatched).status = "killed" ∧
    (killOrder fxOrdMatched).settle_retries = 3 ∧
    ¬ 10 < (killOrder fxOrdMatched).settle_retries :=
  ⟨rfl, rfl, by decide⟩

/-- C4 (amended): the kill operation sets status `killed` and inflates
the trade and bridge retry counters to 99 (above their bounds 5), leaves
`settle_retries` unchanged, and `killed` is absorbing: a tick of the
progress loop leaves any killed order completely unchanged. -/
theorem claim_C4_kill_absorbing (o : Order) (env : Env) :
    (killOrder o).status = "killed" ∧
    (killOrder o).trade_retries = some 99 ∧
    (killOrder o).bridge_retries = 99 ∧
    (killOrder o).settle_retries = o.settle_retries ∧
    tick env (killOrder o) = killOrder o ∧
    ∀ o' : Order, o'.status = "killed" → tick env o' = o' := by
  refine ⟨rfl, rfl, rfl, rfl, ?_, ?_⟩
  · simp [tick, killOrder]
  · intro o' h
    simp [tick, h]

/-- C4 witness: the absorbing part applied to a concrete killed order. -/
theorem claim_C4_witness :
    fxOrdKilled.status = "killed" ∧ tick fxEnvPending fxOrdKilled = fxOrdKilled :=
  ⟨rfl, (claim_C4_kill_absorbing fxOrdKilled fxEnvPending).2.2.2.2.2 fxOrdKilled rfl⟩

unseal Rat.add Rat.mul Rat.sub Rat.inv in
/-- C5 counterexample: a Polymarket sell with proceeds 0.40 USDC
(400000 raw, below the $1 = 10^6 bridge floor) returning to Base
(8453 ≠ Polygon 137): the code performs a direct fallback transfer on
the source chain and returns a successful result flagged `direct`; no
`BRIDGE_AMOUNT_TOO_SMALL` error is surfaced. -/
theorem claim_C5_counterexample :
    bridgeBack "polymarket" 8453 400000 fxBBEnv = BBOut.ok "0xfallback" 400000 true ∧
    bbFloorAmount "polymarket" 400000 < 10 ^ platformDecimals "polymarket" ∧
    platformChain "polymarket" ≠ 8453 :=
  ⟨by decide, by decide, by decide⟩

/-- C5 (amended): for proceeds below the $1 bridge floor, `_bridge_back`
performs a direct same-chain transfer when source and destination chains
coincide; otherwise it falls back to a direct transfer on the source
chain (result flagged `direct`), or reports "insufficient balance for
fallback" when the adapter balance does not cover the proceeds.  No
`BRIDGE_AMOUNT_TOO_SMALL` error exists in the code. -/
theorem claim_C5_small_amount_fallback (platform : String) (toChain : ℤ)
    (proceeds : ℤ) (env : BBEnv) (hp : 0 < proceeds) (hok : env.adapterOk = true)
    (hsmall : bbFloorAmount platform proceeds < 10 ^ platformDecimals platform) :
    (platformChain platform = toChain →
      ∀ tx, env.sameChainTransfer = Except.ok tx →
        bridgeBack platform toChain proceeds env = BBOut.ok tx proceeds false) ∧
    (platformChain platform ≠ toChain →
      bridgeBack platform toChain proceeds env =
        (if (if env.hasBalanceFn then env.actualBal else proceeds) < proceeds then
          BBOut.err "insufficient balance for fallback"
        else
          match env.fallbackTransfer with
          | Except.ok tx => BBOut.ok tx proceeds true
          | Except.error e => BBOut.err ("fallback transfer failed: " ++ e))) := by
  constructor
  · intro hc tx htx
    simp [bridgeBack, hok, not_le.mpr hp, hc, htx]
  · intro hc
    simp [bridgeBack, hok, not_le.mpr hp, hc, hsmall]

unseal Rat.add Rat.mul Rat.sub Rat.inv in
/-- C5 witness: same-chain small proceeds (Polygon → Polygon) become a
direct transfer. -/
theorem claim_C5_witness :
    bridgeBack "polymarket" 137 400000 fxBBEnv = BBOut.ok "0xsame" 400000 false :=
  (claim_C5_small_amount_fallback "polymarket" 137 400000 fxBBEnv (by decide) rfl
    (by decide)).1 (by decide) "0xsame" rfl

/-- C3 counterexample: an order in the non-terminal buy state `sent`
whose (legacy single-bridge) LiFi poll keeps answering a non-terminal
status is a fixpoint of the progress tick — the state `sent` is
revisited by every further tick and no terminal state is ever reached,
because bridge polling carries no retry bound. -/
theorem claim_C3_counterexample :
    tick fxEnvPending fxOrdSent = fxOrdSent ∧ fxOrdSent.status = "sent" :=
  ⟨rfl, rfl⟩

/-- C3 (amended): the retried transitions that the code does bound
behave as claimed — trading attempts are capped at 5 (crossing the cap
moves the order to `trade_failed` with the last error preserved),
settlement-poll crossings of 10 move to `trade_failed` with error
"settlement timeout", bridge-back attempts are capped at 5 (crossing
moves to `bridge_failed` with the error preserved), and the exhausted
failure states are then left untouched.  But under-bound settlement
increments are not persisted (the loop only saves orders whose branch
set the `changed` flag), and the polling states `sent` and
`bridging_back` have no bound at all: a pending poll leaves the order
unchanged, so those states can be revisited by infinitely many ticks. -/
theorem claim_C3_retry_bounds (env : Env) (o : Order) :
    (o.status = "sent" → o.bridges = none → o.hasBridgeTx = true →
      env.poll 0 = some LStat.other → tick env o = o) ∧
    (o.status = "bridged" → o.direction ≠ "sell" → env.tradeExn = none →
      env.tradeAllOk = false → 4 ≤ o.trade_retries.getD 0 →
      (tick env o).status = "trade_failed" ∧
      (tick env o).trade_retries = some (o.trade_retries.getD 0 + 1) ∧
      (tick env o).trade_error = some env.tradeErrStr) ∧
    (o.status = "trade_failed" → 5 ≤ o.trade_retries.getD 0 → tick env o = o) ∧
    (o.status = "matched" → o.direction ≠ "sell" → env.settleExn = false →
      env.settleDone = false →
      (9 ≤ o.settle_retries →
        (tick env o).status = "trade_failed" ∧
        (tick env o).trade_error = some "settlement timeout" ∧
        (tick env o).settle_retries = o.settle_retries + 1) ∧
      (o.settle_retries < 9 → tick env o = o)) ∧
    (o.status = "sell_matched" → o.direction = "sell" → env.settleExn = false →
      env.settleDone = false →
      (9 ≤ o.settle_retries →
        (tick env o).status = "trade_failed" ∧
        (tick env o).trade_error = some "settlement timeout") ∧
      (o.settle_retries < 9 → tick env o = o)) ∧
    (o.status = "sell_settled" → o.direction = "sell" → env.bridgeExn = none →
      o.bridge_retries = 4 →
      ∀ e, env.bridgeRes = BBOut.err e →
        (tick env o).status = "bridge_failed" ∧
        (tick env o).bridge_error = some e ∧
        (tick env o).bridge_retries = 5) ∧
    (o.status = "bridge_failed" → 5 ≤ o.bridge_retries → tick env o = o) ∧
    (o.status = "bridging_back" → o.direction = "sell" →
      env.poll 0 = some LStat.other → tick env o = o) := by
  refine ⟨?_, ?_, ?_, ?_, ?_, ?_, ?_, ?_⟩
  · intro hs hb ht hp
    simp [tick, hs, hb, ht, hp]
  · intro hs hd hexn hok hr
    simp [tick, hs, hd, hexn, hok, show (5:ℕ) ≤ o.trade_retries.getD 0 + 1 from by omega]
  · intro hs hr
    by_cases hd : o.direction = "sell" <;>
      simp [tick, hs, hd, hr]
  · intro hs hd hsx hsd
    constructor
    · intro hr
      simp [tick, hs, hd, hsx, hsd, show (10:ℕ) ≤ o.settle_retries + 1 from by omega]
    · intro hr
      simp [tick, hs, hd, hsx, hsd, show ¬ (10:ℕ) ≤ o.settle_retries + 1 from by omega]
  · intro hs hd hsx hsd
    constructor
    · intro hr
      simp [tick, hs, hd, hsx, hsd, show (10:ℕ) ≤ o.settle_retries + 1 from by omega]
    · intro hr
      simp [tick, hs, hd, hsx, hsd, show ¬ (10:ℕ) ≤ o.settle_retries + 1 from by omega]
  · intro hs hd hexn hr e hres
    simp [tick, hs, hd, hexn, hr, hres]
  · intro hs hr
    by_cases hd : o.direction = "sell" <;>
      simp [tick, hs, hd, hr, show ¬ o.bridge_retries < 5 from by omega]
  · intro hs hd hp
    cases htx : o.bridge_back_tx <;>
      simp [tick, hs, hd, hp, htx]

/-- C3 witness: the fifth failed trade attempt on a concrete bridged
order moves it to `trade_failed` with the error preserved. -/
theorem claim_C3_witness :
    (tick fxEnvTradeFail fxOrdBridged).status = "trade_failed" ∧
    (tick fxEnvTradeFail fxOrdBridged).trade_retries = some 5 ∧
    (tick fxEnvTradeFail fxOrdBridged).trade_error = some "boom" := by
  have h := (claim_C3_retry_bounds fxEnvTradeFail fxOrdBridged).2.1 rfl
    (by decide) rfl rfl (by decide)
  exact ⟨h.1, h.2.1, h.2.2⟩

theorem roundTo_mono (n : ℕ) {x y : ℚ} (h : x ≤ y) : roundTo n x ≤ roundTo n y := by
  unfold roundTo
  have hc : (0 : ℚ) < 10 ^ n := by positivity
  have hf : round (x * 10 ^ n) ≤ round (y * 10 ^ n) := by
    rw [round_eq, round_eq]
    exact Int.floor_le_floor (by nlinarith)
  exact (div_le_div_iff_of_pos_right hc).mpr (by exact_mod_cast hf)

theorem roundTo_zero (n : ℕ) : roundTo n 0 = 0 := by
  simp [roundTo]

theorem roundTo_nonneg (n : ℕ) {x : ℚ} (h : 0 ≤ x) : 0 ≤ roundTo n x := by
  calc (0 : ℚ) = roundTo n 0 := (roundTo_zero n).symm
  _ ≤ roundTo n x := roundTo_mono n h

theorem sumSpent_bumpPlat (p : String) (spend qty : ℚ) (pp : List (String × PlatStat)) :
    ((bumpPlat p spend qty pp).map (fun e => e.2.spent)).sum
      = (pp.map (fun e => e.2.spent)).sum + spend := by
  induction pp with
  | nil => simp [bumpPlat]
  | cons e rest ih =>
    obtain ⟨q, st⟩ := e
    by_cases h : q = p <;> simp [bumpPlat, h, ih] <;> ring

theorem sumQty_bumpPlat (p : String) (spend qty : ℚ) (pp : List (String × PlatStat)) :
    ((bumpPlat p spend qty pp).map (fun e => e.2.qty)).sum
      = (pp.map (fun e => e.2.qty)).sum + qty := by
  induction pp with
  | nil => simp [bumpPlat]
  | cons e rest ih =>
    obtain ⟨q, st⟩ := e
    by_cases h : q = p <;> simp [bumpPlat, h, ih] <;> ring

theorem consume_buy_invariant (lv : TLevel) (st : WalkState) :
    (consume "buy" lv st).remaining + sumSpent (consume "buy" lv st)
      = st.remaining + sumSpent st := by
  simp only [consume]
  split_ifs <;> first
    | rfl
    | (simp [sumSpent, sumSpent_bumpPlat]; try ring)

theorem consume_sell_invariant (d : String) (hd : d ≠ "buy") (lv : TLevel) (st : WalkState) :
    (consume d lv st).remaining + sumQty (consume d lv st)
      = st.remaining + sumQty st := by
  simp only [consume, if_neg hd]
  split_ifs <;> first
    | rfl
    | (simp [sumQty, sumQty_bumpPlat]; try ring)

theorem consume_remaining_nonneg (d : String) (lv : TLevel) (st : WalkState)
    (h : 0 ≤ st.remaining) : 0 ≤ (consume d lv st).remaining := by
  simp only [consume]
  split_ifs <;> first
    | exact h
    | exact sub_nonneg.mpr (min_le_left _ _)

theorem consumeList_buy_invariant (lvs : List TLevel) (st : WalkState) :
    (consumeList "buy" lvs st).remaining + sumSpent (consumeList "buy" lvs st)
      = st.remaining + sumSpent st := by
  induction lvs generalizing st with
  | nil => rfl
  | cons lv rest ih =>
    simp only [consumeList, List.foldl_cons] at ih ⊢
    rw [ih, consume_buy_invariant]

theorem consumeList_sell_invariant (d : String) (hd : d ≠ "buy") (lvs : List TLevel)
    (st : WalkState) :
    (consumeList d lvs st).remaining + sumQty (consumeList d lvs st)
      = st.remaining + sumQty st := by
  induction lvs generalizing st with
  | nil => rfl
  | cons lv rest ih =>
    simp only [consumeList, List.foldl_cons] at ih ⊢
    rw [ih, consume_sell_invariant d hd]

theorem consumeList_remaining_nonneg (d : String) (lvs : List TLevel) (st : WalkState)
    (h : 0 ≤ st.remaining) : 0 ≤ (consumeList d lvs st).remaining := by
  induction lvs generalizing st with
  | nil => exact h
  | cons lv rest ih =>
    simp only [consumeList, List.foldl_cons] at ih ⊢
    exact ih _ (consume_remaining_nonneg d lv st h)

theorem processGroup_buy_invariant (g : List TLevel) (st : WalkState) :
    (processGroup "buy" g st).remaining + sumSpent (processGroup "buy" g st)
      = st.remaining + sumSpent st := by
  simp only [processGroup]
  split_ifs <;> simp [consumeList_buy_invariant]

theorem processGroup_sell_invariant (d : String) (hd : d ≠ "buy") (g : List TLevel)
    (st : WalkState) :
    (processGroup d g st).remaining + sumQty (processGroup d g st)
      = st.remaining + sumQty st := by
  simp only [processGroup]
  split_ifs <;> simp [consumeList_sell_invariant d hd]

theorem processGroup_remaining_nonneg (d : String) (g : List TLevel) (st : WalkState)
    (h : 0 ≤ st.remaining) : 0 ≤ (processGroup d g st).remaining := by
  simp only [processGroup]
  split_ifs
  · exact consumeList_remaining_nonneg d _ _ h
  · exact consumeList_remaining_nonneg d _ _ (consumeList_remaining_nonneg d _ _ h)
  · exact consumeList_remaining_nonneg d _ _ h

theorem walkGroups_buy_invariant (gs : List (ℚ × List TLevel)) (st : WalkState) :
    (walkGroups "buy" gs st).remaining + sumSpent (walkGroups "buy" gs st)
      = st.remaining + sumSpent st := by
  induction gs generalizing st with
  | nil => rfl
  | cons g rest ih =>
    obtain ⟨p, lvs⟩ := g
    simp only [walkGroups]
    split_ifs
    · rfl
    · rw [ih, processGroup_buy_invariant]

theorem walkGroups_sell_invariant (d : String) (hd : d ≠ "buy")
    (gs : List (ℚ × List TLevel)) (st : WalkState) :
    (walkGroups d gs st).remaining + sumQty (walkGroups d gs st)
      = st.remaining + sumQty st := by
  induction gs generalizing st with
  | nil => rfl
  | cons g rest ih =>
    obtain ⟨p, lvs⟩ := g
    simp only [walkGroups]
    split_ifs
    · rfl
    · rw [ih, processGroup_sell_invariant d hd]

theorem walkGroups_remaining_nonneg (d : String) (gs : List (ℚ × List TLevel))
    (st : WalkState) (h : 0 ≤ st.remaining) : 0 ≤ (walkGroups d gs st).remaining := by
  induction gs generalizing st with
  | nil => exact h
  | cons g rest ih =>
    obtain ⟨p, lvs⟩ := g
    simp only [walkGroups]
    split_ifs
    · exact h
    · exact ih _ (processGroup_remaining_nonneg d _ _ h)

unseal Rat.add Rat.mul Rat.sub Rat.inv in
/-- C2 counterexample: for a sell of 10 shares against a single bid of
size 10 at price 0.5, the returned route has `total_spent = 5` (the
proceeds) and `unfilled = 0`, but `budget - total_spent = 5 ≠ 0` — for
sells `remaining` is decremented by shares, not by spend, so the claimed
identity `unfilled = budget - total_spent` fails. -/
theorem claim_C2_counterexample :
    (findOptimalRoute [fxBkSell] 10 "sell").toOption.map Route.unfilled = some 0 ∧
    (findOptimalRoute [fxBkSell] 10 "sell").toOption.map Route.total_spent = some 5 ∧
    (0 : ℚ) ≠ 10 - 5 :=
  ⟨by decide, by decide, by decide⟩

/-- C2 (amended): for every input with positive budget and at least one
level on the walked side, the route is returned successfully; the exact
(pre-rounding) accumulations satisfy the budget identity — for buys
`spent_exact + remaining = budget` and `spent_exact ≤ budget`, for sells
the same with total shares sold in place of spend — with
`remaining ≥ 0`; the returned `unfilled` and `total_spent` fields are
the 4-decimal roundings of `remaining` and of the exact spend, and
`unfilled ≥ 0`. -/
theorem claim_C2_budget_invariants (books : List Book) (budget : ℚ) (d : String)
    (hb : 0 < budget) (hlv : collectLevels books (sideFor d) ≠ []) :
    ∃ r, findOptimalRoute books budget d = Except.ok r ∧
      0 ≤ (finalState books budget d).remaining ∧
      r.unfilled = roundTo 4 (finalState books budget d).remaining ∧
      0 ≤ r.unfilled ∧
      r.total_spent = roundTo 4 (sumSpent (finalState books budget d)) ∧
      (d = "buy" →
        sumSpent (finalState books budget d) + (finalState books budget d).remaining
          = budget ∧
        sumSpent (finalState books budget d) ≤ budget) ∧
      (d ≠ "buy" →
        sumQty (finalState books budget d) + (finalState books budget d).remaining
          = budget ∧
        sumQty (finalState books budget d) ≤ budget) := by
  have hnn : 0 ≤ (finalState books budget d).remaining :=
    walkGroups_remaining_nonneg d _ _ (le_of_lt hb)
  refine ⟨mkRoute budget d (finalState books budget d), ?_, hnn, ?_, ?_, rfl, ?_, ?_⟩
  · simp [findOptimalRoute, not_le.mpr hb, hlv]
  · simp [mkRoute, max_eq_left hnn]
  · simp only [mkRoute]
    exact roundTo_nonneg 4 (le_trans hnn (le_max_left _ _))
  · intro hd
    subst hd
    have h : (walkGroups "buy" (routeGroups books "buy") (initState budget)).remaining
        + sumSpent (walkGroups "buy" (routeGroups books "buy") (initState budget))
        = budget := by
      have h0 := walkGroups_buy_invariant (routeGroups books "buy") (initState budget)
      simpa [initState, sumSpent] using h0
    simp only [finalState] at hnn ⊢
    constructor
    · linarith
    · linarith
  · intro hd
    have h : (walkGroups d (routeGroups books d) (initState budget)).remaining
        + sumQty (walkGroups d (routeGroups books d) (initState budget))
        = budget := by
      have h0 := walkGroups_sell_invariant d hd (routeGroups books d) (initState budget)
      simpa [initState, sumQty] using h0
    simp only [finalState] at hnn ⊢
    constructor
    · linarith
    · linarith

unseal Rat.add Rat.mul Rat.sub Rat.inv in
/-- C2 witness: the amended invariants instantiated on a one-venue buy
book with budget 3. -/
theorem claim_C2_witness :
    0 < (3 : ℚ) ∧ collectLevels [fxBkAlpha] (sideFor "buy") ≠ [] ∧
    (∃ r, findOptimalRoute [fxBkAlpha] 3 "buy" = Except.ok r ∧
      0 ≤ (finalState [fxBkAlpha] 3 "buy").remaining ∧
      r.unfilled = roundTo 4 (finalState [fxBkAlpha] 3 "buy").remaining ∧
      0 ≤ r.unfilled ∧
      r.total_spent = roundTo 4 (sumSpent (finalState [fxBkAlpha] 3 "buy")) ∧
      ("buy" = "buy" →
        sumSpent (finalState [fxBkAlpha] 3 "buy") + (finalState [fxBkAlpha] 3 "buy").remaining
          = 3 ∧
        sumSpent (finalState [fxBkAlpha] 3 "buy") ≤ 3) ∧
      ("buy" ≠ "buy" →
        sumQty (finalState [fxBkAlpha] 3 "buy") + (finalState [fxBkAlpha] 3 "buy").remaining
          = 3 ∧
        sumQty (finalState [fxBkAlpha] 3 "buy") ≤ 3)) :=
  ⟨by decide, by decide, claim_C2_budget_invariants [fxBkAlpha] 3 "buy" (by decide) (by decide)⟩

theorem insertL_perm (le : α → α → Bool) (x : α) (l : List α) :
    List.Perm (insertL le x l) (x :: l) := by
  induction l with
  | nil => exact List.Perm.refl _
  | cons y ys ih =>
    simp only [insertL]
    split_ifs
    · exact List.Perm.refl _
    · exact (ih.cons y).trans (List.Perm.swap x y ys)

theorem sortStable_perm (le : α → α → Bool) (l : List α) :
    List.Perm (sortStable le l) l := by
  induction l with
  | nil => exact List.Perm.refl _
  | cons x xs ih =>
    exact (insertL_perm le x (sortStable le xs)).trans (ih.cons x)

theorem mem_insertL (le : α → α → Bool) (x z : α) (l : List α) :
    z ∈ insertL le x l ↔ z = x ∨ z ∈ l := by
  rw [(insertL_perm le x l).mem_iff]
  simp

theorem pairwise_insertL (le : α → α → Bool)
    (htot : ∀ a b, le a b = true ∨ le b a = true)
    (htrans : ∀ a b c, le a b = true → le b c = true → le a c = true)
    (x : α) (l : List α) (h : l.Pairwise (fun a b => le a b = true)) :
    (insertL le x l).Pairwise (fun a b => le a b = true) := by
  induction l with
  | nil => simp [insertL]
  | cons y ys ih =>
    rcases List.pairwise_cons.mp h with ⟨hy, hys⟩
    simp only [insertL]
    split_ifs with hxy
    · refine List.pairwise_cons.mpr ⟨?_, h⟩
      intro z hz
      rcases List.mem_cons.mp hz with rfl | hz
      · exact hxy
      · exact htrans x y z hxy (hy z hz)
    · refine List.pairwise_cons.mpr ⟨?_, ih hys⟩
      intro z hz
      rcases (mem_insertL le x z ys).mp hz with rfl | hz
      · rcases htot z y with h1 | h1
        · exact absurd h1 hxy
        · exact h1
      · exact hy z hz

theorem sortStable_pairwise (le : α → α → Bool)
    (htot : ∀ a b, le a b = true ∨ le b a = true)
    (htrans : ∀ a b c, le a b = true → le b c = true → le a c = true)
    (l : List α) :
    (sortStable le l).Pairwise (fun a b => le a b = true) := by
  induction l with
  | nil => exact List.Pairwise.nil
  | cons x xs ih => exact pairwise_insertL le htot htrans x (sortStable le xs) ih

theorem pmGetBestOffer_buy (rawBids rawAsks : List PMLevel) :
    pmGetBestOffer rawBids rawAsks "BUY" =
      (match (pmGetOrderbook rawBids rawAsks).asks with
       | a :: _ => ⟨a.price, a.size, "BUY"⟩
       | [] => ⟨0, 0, "BUY"⟩) := by
  simp only [pmGetBestOffer, if_pos (show pyUpper "BUY" = "BUY" by decide)]

theorem pmGetBestOffer_sell (rawBids rawAsks : List PMLevel) :
    pmGetBestOffer rawBids rawAsks "SELL" =
      (match (pmGetOrderbook rawBids rawAsks).bids with
       | b :: _ => ⟨b.price, b.size, "SELL"⟩
       | [] => ⟨0, 0, "SELL"⟩) := by
  simp only [pmGetBestOffer, if_neg (show ¬ pyUpper "SELL" = "BUY" by decide)]

/-- C8: `get_best_offer` with side BUY returns the first level of the
(ascending-sorted) asks, whose price is the minimum raw ask price; with
side SELL it returns the first level of the (descending-sorted) bids;
and it returns price 0 / size 0 whenever the relevant side is empty. -/
theorem claim_C8_best_offer (rawBids rawAsks : List PMLevel) :
    (rawAsks ≠ [] →
      ∃ a rest, (pmGetOrderbook rawBids rawAsks).asks = a :: rest ∧
        pmGetBestOffer rawBids rawAsks "BUY" = ⟨a.price, a.size, "BUY"⟩ ∧
        (∃ lv ∈ rawAsks, lv.price = a.price) ∧
        ∀ lv ∈ rawAsks, a.price ≤ lv.price) ∧
    (rawBids ≠ [] →
      ∃ b rest, (pmGetOrderbook rawBids rawAsks).bids = b :: rest ∧
        pmGetBestOffer rawBids rawAsks "SELL" = ⟨b.price, b.size, "SELL"⟩ ∧
        (∃ lv ∈ rawBids, lv.price = b.price) ∧
        ∀ lv ∈ rawBids, lv.price ≤ b.price) ∧
    (rawAsks = [] → pmGetBestOffer rawBids rawAsks "BUY" = ⟨0, 0, "BUY"⟩) ∧
    (rawBids = [] → pmGetBestOffer rawBids rawAsks "SELL" = ⟨0, 0, "SELL"⟩) := by
  have leA : ∀ a b : PMLevel, (decide (a.price ≤ b.price) = true)
      ∨ (decide (b.price ≤ a.price) = true) := by
    intro a b
    simpa using le_total a.price b.price
  have leAt : ∀ a b c : PMLevel, decide (a.price ≤ b.price) = true →
      decide (b.price ≤ c.price) = true → decide (a.price ≤ c.price) = true := by
    intro a b c h1 h2
    simp only [decide_eq_true_eq] at h1 h2 ⊢
    exact le_trans h1 h2
  have leB : ∀ a b : PMLevel, (decide (b.price ≤ a.price) = true)
      ∨ (decide (a.price ≤ b.price) = true) := by
    intro a b
    simpa using le_total b.price a.price
  have leBt : ∀ a b c : PMLevel, decide (b.price ≤ a.price) = true →
      decide (c.price ≤ b.price) = true → decide (c.price ≤ a.price) = true := by
    intro a b c h1 h2
    simp only [decide_eq_true_eq] at h1 h2 ⊢
    exact le_trans h2 h1
  refine ⟨?_, ?_, ?_, ?_⟩
  · intro hne
    have hperm := sortStable_perm (fun a b : PMLevel => decide (a.price ≤ b.price)) rawAsks
    have hsorted := sortStable_pairwise (fun a b : PMLevel => decide (a.price ≤ b.price))
      leA leAt rawAsks
    cases hs : sortStable (fun a b : PMLevel => decide (a.price ≤ b.price)) rawAsks with
    | nil =>
      rw [hs] at hperm
      exact absurd hperm.symm.eq_nil hne
    | cons a rest =>
      refine ⟨a, rest, by simp [pmGetOrderbook, hs], by simp [pmGetBestOffer_buy, pmGetOrderbook, hs], ?_, ?_⟩
      · refine ⟨a, ?_, rfl⟩
        rw [hs] at hperm
        exact hperm.mem_iff.mp (List.mem_cons_self a rest)
      · intro lv hlv
        rw [hs] at hperm hsorted
        rcases List.mem_cons.mp (hperm.mem_iff.mpr hlv) with rfl | hlv2
        · exact le_refl _
        · have := (List.pairwise_cons.mp hsorted).1 lv hlv2
          simpa using this
  · intro hne
    have hperm := sortStable_perm (fun a b : PMLevel => decide (b.price ≤ a.price)) rawBids
    have hsorted := sortStable_pairwise (fun a b : PMLevel => decide (b.price ≤ a.price))
      leB leBt rawBids
    cases hs : sortStable (fun a b : PMLevel => decide (b.price ≤ a.price)) rawBids with
    | nil =>
      rw [hs] at hperm
      exact absurd hperm.symm.eq_nil hne
    | cons b rest =>
      refine ⟨b, rest, by simp [pmGetOrderbook, hs], by simp [pmGetBestOffer_sell, pmGetOrderbook, hs], ?_, ?_⟩
      · refine ⟨b, ?_, rfl⟩
        rw [hs] at hperm
        exact hperm.mem_iff.mp (List.mem_cons_self b rest)
      · intro lv hlv
        rw [hs] at hperm hsorted
        rcases List.mem_cons.mp (hperm.mem_iff.mpr hlv) with rfl | hlv2
        · exact le_refl _
        · have := (List.pairwise_cons.mp hsorted).1 lv hlv2
          simpa using this
  · intro he
    subst he
    simp [pmGetBestOffer_buy, pmGetOrderbook, sortStable]
  · intro he
    subst he
    simp [pmGetBestOffer_sell, pmGetOrderbook, sortStable]

unseal Rat.add Rat.mul Rat.sub Rat.inv in
/-- C8 witness: the best-offer characterization applied to concrete raw
books (asks listed out of order). -/
theorem claim_C8_witness :
    fxAsks ≠ [] ∧
    (∃ a rest, (pmGetOrderbook fxBids fxAsks).asks = a :: rest ∧
      pmGetBestOffer fxBids fxAsks "BUY" = ⟨a.price, a.size, "BUY"⟩ ∧
      (∃ lv ∈ fxAsks, lv.price = a.price) ∧
      ∀ lv ∈ fxAsks, a.price ≤ lv.price) :=
  ⟨by decide, (claim_C8_best_offer fxBids fxAsks).1 (by decide)⟩

theorem roundTo_eq_self (n : ℕ) (x : ℚ) (m : ℤ) (h : x * 10 ^ n = (m : ℚ)) :
    roundTo n x = x := by
  unfold roundTo
  rw [h, round_intCast]
  rw [div_eq_iff (by positivity : ((10:ℚ) ^ n) ≠ 0)]
  exact h.symm

set_option maxRecDepth 10000 in
theorem mem_gridKeys {k : ℤ} (h : k ∈ gridKeys) : 1 ≤ k ∧ k ≤ 999 := by
  obtain ⟨i, hi, rfl⟩ := List.mem_map.mp h
  have := List.mem_range.mp hi
  omega

set_option maxRecDepth 10000 in
theorem gridKeys_pairwise : gridKeys.Pairwise (· < ·) := by
  rw [gridKeys]
  exact List.Pairwise.map _ (fun a b h => by omega) (List.pairwise_lt_range 999)

theorem mem_pooledGo (books : List Book) (sk : Side) :
    ∀ (ks : List ℤ) (c : ℚ) (e : PoolLevel), e ∈ pooledGo books sk ks c →
      ∃ k, k ∈ ks ∧ 0 < gridVal books sk k ∧
        e.price_cents = roundTo 1 ((k : ℚ) / 10) ∧
        e.size = roundTo 2 (gridVal books sk k) ∧
        e.price = roundTo 4 ((k : ℚ) / 10 / 100) := by
  intro ks
  induction ks with
  | nil => intro c e he; simp [pooledGo] at he
  | cons k ks ih =>
    intro c e he
    simp only [pooledGo] at he
    split_ifs at he with hg
    · rcases List.mem_cons.mp he with rfl | he2
      · exact ⟨k, List.mem_cons_self _ _, hg, rfl, rfl, rfl⟩
      · obtain ⟨k', hk', hg', h1, h2, h3⟩ := ih _ e he2
        exact ⟨k', List.mem_cons_of_mem _ hk', hg', h1, h2, h3⟩
    · obtain ⟨k', hk', hg', h1, h2, h3⟩ := ih _ e he
      exact ⟨k', List.mem_cons_of_mem _ hk', hg', h1, h2, h3⟩

theorem pooledGo_price_lt (books : List Book) (sk : Side) :
    ∀ (ks : List ℤ) (c : ℚ), ks.Pairwise (· < ·) →
      (pooledGo books sk ks c).Pairwise (fun a b => a.price < b.price) := by
  intro ks
  induction ks with
  | nil => intro c _; simp [pooledGo]
  | cons k ks ih =>
    intro c hp
    rcases List.pairwise_cons.mp hp with ⟨hk, hks⟩
    simp only [pooledGo]
    split_ifs with hg
    · refine List.pairwise_cons.mpr ⟨?_, ih _ hks⟩
      intro e he
      obtain ⟨k', hk', _, _, _, h3⟩ := mem_pooledGo books sk ks _ e he
      have hlt : k < k' := hk k' hk'
      have e1 : roundTo 4 ((k : ℚ) / 10 / 100) = (k : ℚ) / 10 / 100 :=
        roundTo_eq_self 4 _ (10 * k) (by push_cast; ring)
      have e2 : roundTo 4 ((k' : ℚ) / 10 / 100) = (k' : ℚ) / 10 / 100 :=
        roundTo_eq_self 4 _ (10 * k') (by push_cast; ring)
      simp only [h3, e1, e2]
      have : (k : ℚ) < k' := by exact_mod_cast hlt
      nlinarith
    · exact ih _ hks

theorem pooledGo_cumsum (books : List Book) (sk : Side) :
    ∀ (ks : List ℤ) (c : ℚ), (∀ k ∈ ks, 1 ≤ k) →
      (pooledGo books sk ks c).Pairwise (fun a b => a.cumsum ≤ b.cumsum) ∧
      ∀ e ∈ pooledGo books sk ks c, roundTo 2 c ≤ e.cumsum := by
  intro ks
  induction ks with
  | nil => intro c _; simp [pooledGo]
  | cons k ks ih =>
    intro c hk1
    simp only [pooledGo]
    split_ifs with hg
    · have hpd : (0 : ℚ) < (k : ℚ) / 10 / 100 := by
        have : (1 : ℚ) ≤ (k : ℚ) := by
          exact_mod_cast hk1 k (List.mem_cons_self _ _)
        nlinarith
      have hsz : 0 ≤ roundTo 2 (gridVal books sk k) := roundTo_nonneg 2 (le_of_lt hg)
      have htot : 0 ≤ roundTo 2 ((k : ℚ) / 10 / 100 * roundTo 2 (gridVal books sk k)) :=
        roundTo_nonneg 2 (by positivity)
      obtain ⟨ihp, ihge⟩ := ih (c + roundTo 2 ((k : ℚ) / 10 / 100 * roundTo 2 (gridVal books sk k)))
        (fun k' hk' => hk1 k' (List.mem_cons_of_mem _ hk'))
      constructor
      · refine List.pairwise_cons.mpr ⟨?_, ihp⟩
        intro e he
        exact ihge e he
      · intro e he
        rcases List.mem_cons.mp he with rfl | he2
        · exact roundTo_mono 2 (by linarith)
        · exact le_trans (roundTo_mono 2 (by linarith)) (ihge e he2)
    · exact ih c (fun k2 hk2 => hk1 k2 (List.mem_cons_of_mem _ hk2))

set_option maxRecDepth 400000 in
unseal Rat.add Rat.mul Rat.sub Rat.inv in
/-- C6 counterexample: a single book with one ask of size 0.006 at the
50c bucket: the emitted pooled size is `round(0.006, 2) = 0.01`, which
differs from the exact bucket sum 0.006 — the emitted `size` is the
2-decimal rounding of the sum, not the sum itself. -/
theorem claim_C6_counterexample :
    (buildPooled [fxBkTiny] Side.asks).map PoolLevel.size = [1/100] ∧
    gridVal [fxBkTiny] Side.asks 500 = 3/500 ∧
    (1/100 : ℚ) ≠ 3/500 :=
  ⟨by decide, by decide, by decide⟩

/-- C6 (amended): every level emitted by `build_pooled` sits on a bucket
`k ∈ [1, 999]` with `price_cents = k/10` and `size` equal to the
2-decimal rounding of the sum over input books of the sizes in that
0.1-cent bucket (the bucket sum being positive); emitted prices are
strictly ascending and the running `cumsum` field is monotone
nondecreasing. -/
theorem claim_C6_pooled_invariants (books : List Book) (sk : Side) :
    (∀ e ∈ buildPooled books sk, ∃ k : ℤ, 1 ≤ k ∧ k ≤ 999 ∧
      e.price_cents = (k : ℚ) / 10 ∧ 0 < gridVal books sk k ∧
      e.size = roundTo 2 (gridVal books sk k)) ∧
    (buildPooled books sk).Pairwise (fun a b => a.price < b.price) ∧
    (buildPooled books sk).Pairwise (fun a b => a.cumsum ≤ b.cumsum) := by
  refine ⟨?_, ?_, ?_⟩
  · intro e he
    obtain ⟨k, hk, hg, h1, h2, _⟩ := mem_pooledGo books sk gridKeys 0 e he
    obtain ⟨hk1, hk2⟩ := mem_gridKeys hk
    refine ⟨k, hk1, hk2, ?_, hg, h2⟩
    rw [h1]
    exact roundTo_eq_self 1 _ k (by ring)
  · exact pooledGo_price_lt books sk gridKeys 0 gridKeys_pairwise
  · exact (pooledGo_cumsum books sk gridKeys 0 (fun k hk => (mem_gridKeys hk).1)).1

set_option maxRecDepth 400000 in
unseal Rat.add Rat.mul Rat.sub Rat.inv in
/-- C6 witness: the bucket characterization applied to the single level
emitted for the concrete tiny book. -/
theorem claim_C6_witness :
    (⟨1/2, 1/100, 1/100, 50, 1/100⟩ : PoolLevel) ∈ buildPooled [fxBkTiny] Side.asks ∧
    ∃ k : ℤ, 1 ≤ k ∧ k ≤ 999 ∧
      (⟨1/2, 1/100, 1/100, 50, 1/100⟩ : PoolLevel).price_cents = (k : ℚ) / 10 ∧
      0 < gridVal [fxBkTiny] Side.asks k ∧
      (⟨1/2, 1/100, 1/100, 50, 1/100⟩ : PoolLevel).size
        = roundTo 2 (gridVal [fxBkTiny] Side.asks k) :=
  ⟨by decide, (claim_C6_pooled_invariants [fxBkTiny] Side.asks).1 _ (by decide)⟩

theorem groupAux_of_distinct (l : List TLevel)
    (h : l.Chain' (fun a b => a.price ≠ b.price)) :
    groupAux l = l.map (fun lv => (lv.price, [lv])) := by
  induction l with
  | nil => rfl
  | cons x xs ih =>
    have hxs := ih (List.Chain'.tail h)
    cases xs with
    | nil => rfl
    | cons y ys =>
      have hxy : x.price ≠ y.price := (List.chain'_cons.mp h).1
      rw [groupAux, hxs]
      simp [hxy]

theorem mem_addUsed (p q : String) (used : List String) (h : q ∈ used) :
    q ∈ addUsed p used := by
  unfold addUsed
  split_ifs
  · exact h
  · exact List.mem_append_left _ h

theorem consume_used_mono (d : String) (lv : TLevel) (st : WalkState) (p : String)
    (h : p ∈ st.used) : p ∈ (consume d lv st).used := by
  simp only [consume]
  split_ifs <;> first
    | exact h
    | exact mem_addUsed _ _ _ h

theorem sortStable_singleton (le : α → α → Bool) (x : α) :
    sortStable le [x] = [x] := rfl

theorem processGroup_singleton (d : String) (lv : TLevel) (st : WalkState)
    (hr : ¬ st.remaining ≤ 0) :
    processGroup d [lv] st = consume d lv st := by
  by_cases hm : lv.platform ∈ st.used
  · have hused : lv.platform ∈ (consume d lv st).used := consume_used_mono d lv st _ hm
    simp [processGroup, consumeList, hm, hused]
  · have hbest : argmaxKey (buildVol [lv]) = lv.platform := rfl
    simp [processGroup, consumeList, hm, hbest, lt_of_not_le hr]

theorem walkGroups_eq_legacy_on_singletons (d : String)
    (gs : List (ℚ × List TLevel)) (st : WalkState)
    (hgs : ∀ g ∈ gs, ∃ lv, g.2 = [lv]) :
    walkGroups d gs st = legacyWalk d gs st := by
  induction gs generalizing st with
  | nil => rfl
  | cons g rest ih =>
    obtain ⟨p, glvs⟩ := g
    obtain ⟨lv, hlv⟩ := hgs (p, glvs) (List.mem_cons_self _ _)
    simp only at hlv
    subst hlv
    simp only [walkGroups, legacyWalk]
    split_ifs with hr
    · rfl
    · have hrest : ∀ g ∈ rest, ∃ lv, g.2 = [lv] :=
        fun g hg => hgs g (List.mem_cons_of_mem _ hg)
      rw [ih _ hrest, sortStable_singleton, processGroup_singleton d lv st hr]
      rfl

unseal Rat.add Rat.mul Rat.sub Rat.inv in
/-- C10 counterexample: two venues quoting the same price with budget
exceeding one venue's notional.  The backend copy consumes only the
single best new venue at that price (`total_spent = 5`, one platform,
unfilled budget), while the older copy in src/utils consumes every venue
at the price in name order (`total_spent = 8`): the two copies disagree. -/
theorem claim_C10_counterexample :
    (findOptimalRoute [fxBkAlpha, fxBkBeta] 8 "buy").toOption.map Route.total_spent
      = some 5 ∧
    (findOptimalRouteLegacy [fxBkAlpha, fxBkBeta] 8 "buy").toOption.map Route.total_spent
      = some 8 ∧
    (5 : ℚ) ≠ 8 :=
  ⟨by decide, by decide, by decide⟩

/-- C10 (amended): the two copies of `find_optimal_route` agree on every
input in which no two collected levels share a price (in particular
whenever each price is quoted by at most one venue level); they can
disagree as soon as an equal-price group spans more than one venue. -/
theorem claim_C10_agree_distinct_prices (books : List Book) (budget : ℚ) (d : String)
    (h : (collectLevels books (sideFor d)).Pairwise (fun a b => a.price ≠ b.price)) :
    findOptimalRoute books budget d = findOptimalRouteLegacy books budget d := by
  have hperm := sortStable_perm (leFor d) (collectLevels books (sideFor d))
  have hpw : (sortStable (leFor d) (collectLevels books (sideFor d))).Pairwise
      (fun a b => a.price ≠ b.price) :=
    (hperm.pairwise_iff (fun hab => Ne.symm hab)).mpr h
  have hgroups : ∀ g ∈ routeGroups books d, ∃ lv, g.2 = [lv] := by
    intro g hg
    rw [routeGroups, groupAux_of_distinct _ hpw.chain'] at hg
    obtain ⟨lv, _, rfl⟩ := List.mem_map.mp hg
    exact ⟨lv, rfl⟩
  have hfs : finalState books budget d = legacyFinalState books budget d := by
    rw [finalState, legacyFinalState]
    exact walkGroups_eq_legacy_on_singletons d _ _ hgroups
  rw [findOptimalRoute, findOptimalRouteLegacy, hfs]

unseal Rat.add Rat.mul Rat.sub Rat.inv in
/-- C10 witness: on a single-venue book with distinct level prices the
two copies coincide. -/
theorem claim_C10_witness :
    findOptimalRoute [fxBkZ] 2 "buy" = findOptimalRouteLegacy [fxBkZ] 2 "buy" :=
  claim_C10_agree_distinct_prices [fxBkZ] 2 "buy" (by decide)

theorem consume_fills (d : String) (lv : TLevel) (st : WalkState) :
    ∃ ext, (consume d lv st).fills = st.fills ++ ext ∧
      ∀ f ∈ ext, f.platform = lv.platform := by
  simp only [consume]
  split_ifs <;> first
    | exact ⟨[], (List.append_nil _).symm, by simp⟩
    | exact ⟨_, rfl, by simp⟩

theorem consumeList_fills (d : String) (lvs : List TLevel) (st : WalkState) :
    ∃ ext, (consumeList d lvs st).fills = st.fills ++ ext ∧
      ∀ f ∈ ext, ∃ lv ∈ lvs, f.platform = lv.platform := by
  induction lvs generalizing st with
  | nil => exact ⟨[], by simp [consumeList], by simp⟩
  | cons lv rest ih =>
    obtain ⟨e1, he1, hp1⟩ := consume_fills d lv st
    obtain ⟨e2, he2, hp2⟩ := ih (consume d lv st)
    refine ⟨e1 ++ e2, ?_, ?_⟩
    · simp only [consumeList, List.foldl_cons] at he2 ⊢
      rw [he2, he1, List.append_assoc]
    · intro f hf
      rcases List.mem_append.mp hf with h | h
      · exact ⟨lv, List.mem_cons_self _ _, hp1 f h⟩
      · obtain ⟨lv2, hlv2, hp⟩ := hp2 f h
        exact ⟨lv2, List.mem_cons_of_mem _ hlv2, hp⟩

theorem consume_used_eq (d : String) (lv : TLevel) (st : WalkState)
    (h : lv.platform ∈ st.used) : (consume d lv st).used = st.used := by
  simp only [consume]
  split_ifs <;> simp [addUsed, h]

theorem consumeList_used_eq (d : String) (lvs : List TLevel) (st : WalkState)
    (h : ∀ lv ∈ lvs, lv.platform ∈ st.used) :
    (consumeList d lvs st).used = st.used := by
  induction lvs generalizing st with
  | nil => rfl
  | cons lv rest ih =>
    simp only [consumeList, List.foldl_cons] at ih ⊢
    have h1 := consume_used_eq d lv st (h lv (List.mem_cons_self _ _))
    rw [ih (consume d lv st) (fun lv2 hl => by
      rw [h1]; exact h lv2 (List.mem_cons_of_mem _ hl)), h1]

theorem lookupVol_cons (r : String) (w : ℚ) (l : List (String × ℚ)) (p : String) :
    lookupVol ((r, w) :: l) p = (if r = p then w else 0) + lookupVol l p := by
  by_cases h : r = p <;> simp [lookupVol, h]

theorem lookupVol_bumpVol (q : String) (v : ℚ) (acc : List (String × ℚ)) (p : String) :
    lookupVol (bumpVol q v acc) p = lookupVol acc p + (if q = p then v else 0) := by
  induction acc with
  | nil =>
    by_cases h : q = p <;> simp [bumpVol, lookupVol, h]
  | cons e rest ih =>
    obtain ⟨r, w⟩ := e
    by_cases hrq : r = q
    · subst hrq
      simp only [bumpVol, eq_self_iff_true, if_true]
      rw [lookupVol_cons, lookupVol_cons]
      by_cases hrp : r = p <;> simp [hrp] <;> ring
    · simp only [bumpVol, if_neg hrq]
      rw [lookupVol_cons, lookupVol_cons, ih]
      ring

theorem lookupVol_buildVol_aux (lvs : List TLevel) (acc : List (String × ℚ)) (p : String) :
    lookupVol (lvs.foldl (fun a lv => bumpVol lv.platform (lv.price * lv.size) a) acc) p
      = lookupVol acc p + notionalIn lvs p := by
  induction lvs generalizing acc with
  | nil => simp [notionalIn]
  | cons lv rest ih =>
    simp only [List.foldl_cons]
    rw [ih, lookupVol_bumpVol]
    by_cases h : lv.platform = p <;> simp [notionalIn, List.filter_cons, h] <;> ring

theorem lookupVol_buildVol (lvs : List TLevel) (p : String) :
    lookupVol (buildVol lvs) p = notionalIn lvs p := by
  have h := lookupVol_buildVol_aux lvs [] p
  simpa [buildVol, lookupVol] using h

theorem mem_keys_bumpVol (q : String) (v : ℚ) (acc : List (String × ℚ)) (p : String) :
    p ∈ (bumpVol q v acc).map Prod.fst ↔ p = q ∨ p ∈ acc.map Prod.fst := by
  induction acc with
  | nil => simp [bumpVol, eq_comm]
  | cons e rest ih =>
    obtain ⟨r, w⟩ := e
    by_cases hrq : r = q
    · subst hrq
      simp only [bumpVol, eq_self_iff_true, if_true, List.map_cons, List.mem_cons]
      tauto
    · simp only [bumpVol, if_neg hrq, List.map_cons, List.mem_cons, ih]
      tauto

theorem argmax_foldl (e : String × ℚ) (rest : List (String × ℚ)) :
    (rest.foldl (fun best x => if best.2 < x.2 then x else best) e) ∈ e :: rest ∧
    e.2 ≤ (rest.foldl (fun best x => if best.2 < x.2 then x else best) e).2 ∧
    ∀ x ∈ rest, x.2 ≤ (rest.foldl (fun best x => if best.2 < x.2 then x else best) e).2 := by
  induction rest generalizing e with
  | nil => exact ⟨List.mem_cons_self _ _, le_refl _, by simp⟩
  | cons x rs ih =>
    simp only [List.foldl_cons]
    obtain ⟨hmem, hle, hall⟩ := ih (if e.2 < x.2 then x else e)
    have hstep_mem : (if e.2 < x.2 then x else e) ∈ e :: x :: rs := by
      split_ifs
      · exact List.mem_cons_of_mem _ (List.mem_cons_self _ _)
      · exact List.mem_cons_self _ _
    have he_le : e.2 ≤ (if e.2 < x.2 then x else e).2 := by
      split_ifs with h
      · exact le_of_lt h
      · exact le_refl _
    have hx_le : x.2 ≤ (if e.2 < x.2 then x else e).2 := by
      split_ifs with h
      · exact le_refl _
      · exact le_of_not_lt h
    refine ⟨?_, le_trans he_le hle, ?_⟩
    · rcases List.mem_cons.mp hmem with h | h
      · rw [h]
        exact hstep_mem
      · exact List.mem_cons_of_mem _ (List.mem_cons_of_mem _ h)
    · intro y hy
      rcases List.mem_cons.mp hy with rfl | hy2
      · exact le_trans hx_le hle
      · exact hall y hy2

theorem argmaxKey_spec (l : List (String × ℚ)) (hl : l ≠ []) :
    ∃ v, (argmaxKey l, v) ∈ l ∧ ∀ e ∈ l, e.2 ≤ v := by
  cases l with
  | nil => exact absurd rfl hl
  | cons e rest =>
    obtain ⟨hmem, hle, hall⟩ := argmax_foldl e rest
    refine ⟨(rest.foldl (fun best x => if best.2 < x.2 then x else best) e).2, ?_, ?_⟩
    · exact hmem
    · intro x hx
      rcases List.mem_cons.mp hx with rfl | hx2
      · exact hle
      · exact hall x hx2

theorem mem_keys_buildVol_aux (lvs : List TLevel) (acc : List (String × ℚ)) (p : String) :
    p ∈ ((lvs.foldl (fun a lv => bumpVol lv.platform (lv.price * lv.size) a) acc).map
      Prod.fst) ↔ p ∈ acc.map Prod.fst ∨ ∃ lv ∈ lvs, lv.platform = p := by
  induction lvs generalizing acc with
  | nil => simp
  | cons lv rest ih =>
    simp only [List.foldl_cons, ih, mem_keys_bumpVol]
    constructor
    · rintro ((h | h) | h)
      · exact Or.inr ⟨lv, List.mem_cons_self _ _, h.symm⟩
      · exact Or.inl h
      · obtain ⟨lv2, hl, hp⟩ := h
        exact Or.inr ⟨lv2, List.mem_cons_of_mem _ hl, hp⟩
    · rintro (h | ⟨lv2, hl, hp⟩)
      · exact Or.inl (Or.inr h)
      · rcases List.mem_cons.mp hl with rfl | hl2
        · exact Or.inl (Or.inl hp.symm)
        · exact Or.inr ⟨lv2, hl2, hp⟩

theorem mem_keys_buildVol (lvs : List TLevel) (p : String) :
    p ∈ (buildVol lvs).map Prod.fst ↔ ∃ lv ∈ lvs, lv.platform = p := by
  rw [buildVol, mem_keys_buildVol_aux]
  simp

theorem keys_bumpVol_sub (q : String) (v : ℚ) (acc : List (String × ℚ)) :
    ∀ p ∈ (bumpVol q v acc).map Prod.fst, p = q ∨ p ∈ acc.map Prod.fst :=
  fun p hp => (mem_keys_bumpVol q v acc p).mp hp

theorem nodup_keys_bumpVol (q : String) (v : ℚ) (acc : List (String × ℚ))
    (h : (acc.map Prod.fst).Nodup) : ((bumpVol q v acc).map Prod.fst).Nodup := by
  induction acc with
  | nil => simp [bumpVol]
  | cons e rest ih =>
    obtain ⟨r, w⟩ := e
    rcases List.nodup_cons.mp h with ⟨hr, hrest⟩
    by_cases hrq : r = q
    · subst hrq
      simp only [bumpVol, eq_self_iff_true, if_true, List.map_cons, List.nodup_cons]
      exact ⟨hr, hrest⟩
    · simp only [bumpVol, if_neg hrq, List.map_cons, List.nodup_cons]
      refine ⟨?_, ih hrest⟩
      intro habs
      rcases (mem_keys_bumpVol q v rest r).mp habs with h1 | h1
      · exact hrq h1
      · exact hr h1

theorem nodup_keys_buildVol_aux (lvs : List TLevel) (acc : List (String × ℚ))
    (h : (acc.map Prod.fst).Nodup) :
    (((lvs.foldl (fun a lv => bumpVol lv.platform (lv.price * lv.size) a) acc).map
      Prod.fst)).Nodup := by
  induction lvs generalizing acc with
  | nil => exact h
  | cons lv rest ih =>
    simp only [List.foldl_cons]
    exact ih _ (nodup_keys_bumpVol _ _ _ h)

theorem nodup_keys_buildVol (lvs : List TLevel) :
    ((buildVol lvs).map Prod.fst).Nodup :=
  nodup_keys_buildVol_aux lvs [] (by simp)

theorem lookupVol_not_mem (l : List (String × ℚ)) (p : String)
    (h : p ∉ l.map Prod.fst) : lookupVol l p = 0 := by
  induction l with
  | nil => rfl
  | cons e rest ih =>
    obtain ⟨r, w⟩ := e
    simp only [List.map_cons, List.mem_cons] at h
    push_neg at h
    rw [lookupVol_cons, if_neg (fun hh => h.1 hh.symm), ih h.2, zero_add]

theorem lookupVol_of_mem_nodup (l : List (String × ℚ)) (p : String) (w : ℚ)
    (hnd : (l.map Prod.fst).Nodup) (h : (p, w) ∈ l) : lookupVol l p = w := by
  induction l with
  | nil => simp at h
  | cons e rest ih =>
    obtain ⟨r, u⟩ := e
    rcases List.nodup_cons.mp hnd with ⟨hr, hrest⟩
    rcases List.mem_cons.mp h with heq | hmem
    · have h1 : p = r := congrArg Prod.fst heq
      have h2 : w = u := congrArg Prod.snd heq
      subst h1
      subst h2
      rw [lookupVol_cons, if_pos rfl, lookupVol_not_mem rest p hr, add_zero]
    · have hrp : r ≠ p := by
        intro hh
        subst hh
        exact hr (List.mem_map.mpr ⟨(r, w), hmem, rfl⟩)
      rw [lookupVol_cons, if_neg hrp, ih hrest hmem, zero_add]

theorem notionalIn_filter_not_used (g : List TLevel) (used : List String) (r : String)
    (h : r ∉ used) :
    notionalIn (g.filter (fun lv => lv.platform ∉ used)) r = notionalIn g r := by
  unfold notionalIn
  congr 1
  rw [List.filter_filter]
  apply congrArg
  apply List.filter_congr
  intro lv _
  by_cases hp : lv.platform = r
  · have hnu : lv.platform ∉ used := hp ▸ h
    simp [hp, hnu, h]
  · simp [hp]

theorem walkGroups_of_nonpos (d : String) (gs : List (ℚ × List TLevel)) (st : WalkState)
    (h : st.remaining ≤ 0) : walkGroups d gs st = st := by
  cases gs with
  | nil => rfl
  | cons g rest =>
    obtain ⟨p, lvs⟩ := g
    simp [walkGroups, h]

theorem walkGroups_append (d : String) (xs ys : List (ℚ × List TLevel)) (st : WalkState) :
    walkGroups d (xs ++ ys) st = walkGroups d ys (walkGroups d xs st) := by
  induction xs generalizing st with
  | nil => rfl
  | cons g rest ih =>
    obtain ⟨p, lvs⟩ := g
    simp only [List.cons_append, walkGroups]
    split_ifs with h
    · exact (walkGroups_of_nonpos d ys st h).symm
    · exact ih _

theorem stateAfter_succ (books : List Book) (budget : ℚ) (d : String) (i : ℕ)
    (hi : i < (routeGroups books d).length)
    (hr : 0 < (stateAfter books budget d i).remaining) :
    stateAfter books budget d (i + 1)
      = processGroup d ((routeGroups books d).get ⟨i, hi⟩).2
          (stateAfter books budget d i) := by
  have hr2 : ¬ (walkGroups d ((routeGroups books d).take i)
      (initState budget)).remaining ≤ 0 := not_le.mpr hr
  unfold stateAfter
  rw [List.take_succ, List.getElem?_eq_getElem hi]
  simp only [Option.toList]
  rw [walkGroups_append]
  have hgg : (routeGroups books d).get ⟨i, hi⟩ = (routeGroups books d)[i] := rfl
  rw [← hgg]
  cases hge : (routeGroups books d).get ⟨i, hi⟩ with
  | mk p lvs =>
    simp only [walkGroups, if_neg hr2]

theorem processGroup_spec (d : String) (g : List TLevel) (st : WalkState) :
    ∃ kf nf,
      (processGroup d g st).fills = st.fills ++ kf ++ nf ∧
      (∀ f ∈ kf, f.platform ∈ st.used) ∧
      (nf = [] ∨ ∃ q, q ∉ st.used ∧ (∀ f ∈ nf, f.platform = q) ∧
        (∃ lv ∈ g, lv.platform = q) ∧
        (∀ r, (∃ lv ∈ g, lv.platform = r) → r ∉ st.used →
          notionalIn g r ≤ notionalIn g q)) ∧
      ((consumeList d (g.filter (fun lv => lv.platform ∈ st.used)) st).remaining ≤ 0 →
        nf = []) := by
  obtain ⟨kf, hkf, hkfp⟩ :=
    consumeList_fills d (g.filter (fun lv => lv.platform ∈ st.used)) st
  have hkfused : ∀ f ∈ kf, f.platform ∈ st.used := by
    intro f hf
    obtain ⟨lv, hlv, hp⟩ := hkfp f hf
    rw [hp]
    exact of_decide_eq_true (List.mem_filter.mp hlv).2
  have hused : (consumeList d (g.filter (fun lv => lv.platform ∈ st.used)) st).used
      = st.used := by
    apply consumeList_used_eq
    intro lv hlv
    exact of_decide_eq_true (List.mem_filter.mp hlv).2
  have hpg : processGroup d g st =
      (if 0 < (consumeList d (g.filter (fun lv => lv.platform ∈ st.used)) st).remaining then
        (if g.filter (fun lv => lv.platform ∉ st.used) = [] then
          consumeList d (g.filter (fun lv => lv.platform ∈ st.used)) st
        else
          consumeList d
            ((g.filter (fun lv => lv.platform ∉ st.used)).filter
              (fun lv => lv.platform
                = argmaxKey (buildVol (g.filter (fun lv => lv.platform ∉ st.used)))))
            (consumeList d (g.filter (fun lv => lv.platform ∈ st.used)) st))
      else consumeList d (g.filter (fun lv => lv.platform ∈ st.used)) st) := by
    simp only [processGroup]
    rw [hused]
  by_cases h1 : 0 < (consumeList d (g.filter (fun lv => lv.platform ∈ st.used)) st).remaining
  · by_cases h2 : g.filter (fun lv => lv.platform ∉ st.used) = []
    · refine ⟨kf, [], ?_, hkfused, Or.inl rfl, fun _ => rfl⟩
      rw [hpg, if_pos h1, if_pos h2, hkf, List.append_nil]
    · obtain ⟨nf, hnf, hnfp⟩ := consumeList_fills d
        ((g.filter (fun lv => lv.platform ∉ st.used)).filter
          (fun lv => lv.platform
            = argmaxKey (buildVol (g.filter (fun lv => lv.platform ∉ st.used)))))
        (consumeList d (g.filter (fun lv => lv.platform ∈ st.used)) st)
      have hne : buildVol (g.filter (fun lv => lv.platform ∉ st.used)) ≠ [] := by
        obtain ⟨lv, hlv⟩ := List.exists_mem_of_ne_nil _ h2
        intro habs
        have hmem : lv.platform ∈ (buildVol (g.filter
            (fun lv => lv.platform ∉ st.used))).map Prod.fst :=
          (mem_keys_buildVol _ lv.platform).mpr ⟨lv, hlv, rfl⟩
        rw [habs] at hmem
        simp at hmem
      obtain ⟨v, hvmem, hvmax⟩ := argmaxKey_spec _ hne
      have hqkeys : argmaxKey (buildVol (g.filter (fun lv => lv.platform ∉ st.used)))
          ∈ (buildVol (g.filter (fun lv => lv.platform ∉ st.used))).map Prod.fst :=
        List.mem_map.mpr ⟨(argmaxKey _, v), hvmem, rfl⟩
      obtain ⟨lvq, hlvq, hlvqp⟩ := (mem_keys_buildVol _ _).mp hqkeys
      have hqnotused : argmaxKey (buildVol (g.filter (fun lv => lv.platform ∉ st.used)))
          ∉ st.used := by
        have hq2 := of_decide_eq_true (List.mem_filter.mp hlvq).2
        rw [← hlvqp]
        exact hq2
      have hvval : v = notionalIn (g.filter (fun lv => lv.platform ∉ st.used))
          (argmaxKey (buildVol (g.filter (fun lv => lv.platform ∉ st.used)))) := by
        rw [← lookupVol_buildVol]
        exact (lookupVol_of_mem_nodup _ _ _ (nodup_keys_buildVol _) hvmem).symm
      refine ⟨kf, nf, ?_, hkfused, Or.inr ⟨argmaxKey (buildVol (g.filter
        (fun lv => lv.platform ∉ st.used))), hqnotused, ?_, ?_, ?_⟩, ?_⟩
      · rw [hpg, if_pos h1, if_neg h2, hnf, hkf]
      · intro f hf
        obtain ⟨lv, hlv, hp⟩ := hnfp f hf
        rw [hp]
        exact of_decide_eq_true (List.mem_filter.mp hlv).2
      · exact ⟨lvq, (List.mem_filter.mp hlvq).1, hlvqp⟩
      · intro r hrg hrnotused
        obtain ⟨lvr, hlvrg, hlvrp⟩ := hrg
        have hlvrnw : lvr ∈ g.filter (fun lv => lv.platform ∉ st.used) := by
          apply List.mem_filter.mpr
          refine ⟨hlvrg, ?_⟩
          simp [hlvrp, hrnotused]
        have hrkeys : r ∈ (buildVol (g.filter
            (fun lv => lv.platform ∉ st.used))).map Prod.fst :=
          (mem_keys_buildVol _ r).mpr ⟨lvr, hlvrnw, hlvrp⟩
        obtain ⟨e, hemem, hefst⟩ := List.mem_map.mp hrkeys
        have heval : e.2 = notionalIn (g.filter (fun lv => lv.platform ∉ st.used)) r := by
          rw [← lookupVol_buildVol, ← hefst]
          exact (lookupVol_of_mem_nodup _ _ _ (nodup_keys_buildVol _) hemem).symm
        have hle : e.2 ≤ v := hvmax e hemem
        rw [← notionalIn_filter_not_used g st.used r hrnotused,
            ← notionalIn_filter_not_used g st.used _ hqnotused,
            ← heval, ← hvval]
        exact hle
      · intro habs
        exact absurd h1 (not_lt.mpr habs)
  · refine ⟨kf, [], ?_, hkfused, Or.inl rfl, fun _ => rfl⟩
    rw [hpg, if_neg h1, hkf, List.append_nil]

/-- C1: at every equal-price group the backend walk reaches with budget
remaining, the fills added for that group split into a first part coming
only from venues already used before the group, followed by fills of at
most one single new venue; when a new venue is consumed it is one with a
level in the group, not used before, and of maximal total notional
(price·size summed over the group's levels) among the group's not-yet-
used venues; and nothing new is consumed if the budget is exhausted by
the already-used pass. -/
theorem claim_C1_group_discipline (books : List Book) (budget : ℚ) (d : String) (i : ℕ)
    (hi : i < (routeGroups books d).length)
    (hr : 0 < (stateAfter books budget d i).remaining) :
    ∃ kf nf,
      (stateAfter books budget d (i + 1)).fills
        = (stateAfter books budget d i).fills ++ kf ++ nf ∧
      (∀ f ∈ kf, f.platform ∈ (stateAfter books budget d i).used) ∧
      (nf = [] ∨ ∃ q, q ∉ (stateAfter books budget d i).used ∧
        (∀ f ∈ nf, f.platform = q) ∧
        (∃ lv ∈ ((routeGroups books d).get ⟨i, hi⟩).2, lv.platform = q) ∧
        (∀ r, (∃ lv ∈ ((routeGroups books d).get ⟨i, hi⟩).2, lv.platform = r) →
          r ∉ (stateAfter books budget d i).used →
          notionalIn ((routeGroups books d).get ⟨i, hi⟩).2 r
            ≤ notionalIn ((routeGroups books d).get ⟨i, hi⟩).2 q)) ∧
      ((consumeList d (((routeGroups books d).get ⟨i, hi⟩).2.filter
          (fun lv => lv.platform ∈ (stateAfter books budget d i).used))
          (stateAfter books budget d i)).remaining ≤ 0 → nf = []) := by
  obtain ⟨kf, nf, hfills, hkfp, hnew, hbudget⟩ :=
    processGroup_spec d ((routeGroups books d).get ⟨i, hi⟩).2 (stateAfter books budget d i)
  exact ⟨kf, nf, by rw [stateAfter_succ books budget d i hi hr]; exact hfills,
    hkfp, hnew, hbudget⟩

unseal Rat.add Rat.mul Rat.sub Rat.inv in
/-- C1 witness: the group discipline applied to the first (and only)
price group of a concrete two-venue book with budget 8. -/
theorem claim_C1_witness :
    ∃ hi : 0 < (routeGroups [fxBkAlpha, fxBkBeta] "buy").length,
      0 < (stateAfter [fxBkAlpha, fxBkBeta] 8 "buy" 0).remaining ∧
      (∃ kf nf,
        (stateAfter [fxBkAlpha, fxBkBeta] 8 "buy" 1).fills
          = (stateAfter [fxBkAlpha, fxBkBeta] 8 "buy" 0).fills ++ kf ++ nf ∧
        (∀ f ∈ kf, f.platform ∈ (stateAfter [fxBkAlpha, fxBkBeta] 8 "buy" 0).used) ∧
        (nf = [] ∨ ∃ q, q ∉ (stateAfter [fxBkAlpha, fxBkBeta] 8 "buy" 0).used ∧
          (∀ f ∈ nf, f.platform = q) ∧
          (∃ lv ∈ ((routeGroups [fxBkAlpha, fxBkBeta] "buy").get ⟨0, hi⟩).2,
            lv.platform = q) ∧
          (∀ r, (∃ lv ∈ ((routeGroups [fxBkAlpha, fxBkBeta] "buy").get ⟨0, hi⟩).2,
              lv.platform = r) →
            r ∉ (stateAfter [fxBkAlpha, fxBkBeta] 8 "buy" 0).used →
            notionalIn ((routeGroups [fxBkAlpha, fxBkBeta] "buy").get ⟨0, hi⟩).2 r
              ≤ notionalIn ((routeGroups [fxBkAlpha, fxBkBeta] "buy").get ⟨0, hi⟩).2 q)) ∧
        ((consumeList "buy" (((routeGroups [fxBkAlpha, fxBkBeta] "buy").get ⟨0, hi⟩).2.filter
            (fun lv => lv.platform ∈ (stateAfter [fxBkAlpha, fxBkBeta] 8 "buy" 0).used))
            (stateAfter [fxBkAlpha, fxBkBeta] 8 "buy" 0)).remaining ≤ 0 → nf = [])) := by
  refine ⟨by decide, by decide, ?_⟩
  exact claim_C1_group_discipline [fxBkAlpha, fxBkBeta] 8 "buy" 0 (by decide) (by decide)

unseal Rat.add Rat.mul Rat.sub Rat.inv in
/-- C7 counterexample: two venues tie exactly on best-ask price and
notional; the venue listed second ("aaa") has the larger notional at the
next price level (12 vs 6), yet the route consumes only the first-listed
venue "zzz" — the next price level plays no role and the tiebreak is
insertion order, not the claimed larger-next-level rule or a venue-name
tiebreak. -/
theorem claim_C7_counterexample :
    (findOptimalRoute [fxBkZ, fxBkA2] 2 "buy").toOption.map
      (fun r => (r.platforms_used, r.fills.map Fill.platform)) = some (1, ["zzz"]) ∧
    notionalIn ((collectLevels [fxBkZ, fxBkA2] (sideFor "buy")).filter
      (fun lv => lv.price = 3/5)) "aaa" = 12 ∧
    notionalIn ((collectLevels [fxBkZ, fxBkA2] (sideFor "buy")).filter
      (fun lv => lv.price = 3/5)) "zzz" = 6 ∧
    ¬ (12 : ℚ) ≤ 6 ∧ "zzz" ≠ "aaa" :=
  ⟨by decide, by decide, by decide, by decide, by decide⟩

theorem c7_routeGroups (t1 t2 : ℚ) :
    routeGroups (fxC7Books t1 t2) "buy"
      = [((1:ℚ)/2, [⟨"zzz",1/2,10,50⟩, ⟨"aaa",1/2,10,50⟩]),
         ((3:ℚ)/5, [⟨"zzz",3/5,t1,60⟩, ⟨"aaa",3/5,t2,60⟩])] := by
  norm_num [routeGroups, collectLevels, sideFor, fxC7Books, Book.sideOf,
    sortStable, insertL, leFor, groupAux]

theorem c7_final (t1 t2 b : ℚ) (hb0 : 0 < b) (hb5 : b ≤ 5) :
    finalState (fxC7Books t1 t2) b "buy"
      = consume "buy" ⟨"zzz",1/2,10,50⟩ (initState b) := by
  have hnle : ¬ (b ≤ 0) := not_le.mpr hb0
  have hza : ("zzz" : String) ≠ "aaa" := by decide
  have hza2 : ("aaa" : String) ≠ "zzz" := by decide
  have hqa : ¬ (b / ((1:ℚ)/2) ≤ 0) := by rw [not_le]; positivity
  have hqb : ¬ ((2:ℚ) * b ≤ 0) := by rw [not_le]; positivity
  have hqc : ¬ (b * 2 ≤ 0) := by rw [not_le]; positivity
  have hln : ¬ ([(⟨"zzz",(1:ℚ)/2,10,50⟩ : TLevel), ⟨"aaa",(1:ℚ)/2,10,50⟩]
      = ([] : List TLevel)) := by
    simp
  rw [finalState, c7_routeGroups]
  norm_num [walkGroups, processGroup, consumeList, buildVol, bumpVol, argmaxKey,
    initState, hnle, hb0, hza, hza2, min_eq_left hb5, hqa, hqb, hqc, hln, consume]

/-- C7 (amended): in the identical-price, identical-notional two-venue
scenario with the budget consumed within the tied level, the route uses
exactly one platform, and the chosen venue is the one whose levels come
first in the tagged-level order (the first-listed venue "zzz") — for
every next-level depth `t1`, `t2`: the next price level plays no role,
and the tiebreak is insertion order, not venue identifier. -/
theorem claim_C7_tie_first_listed (t1 t2 b : ℚ) (hb0 : 0 < b) (hb5 : b ≤ 5) :
    ∃ r, findOptimalRoute (fxC7Books t1 t2) b "buy" = Except.ok r ∧
      r.platforms_used = 1 ∧ r.fills.map Fill.platform = ["zzz"] := by
  have hnle : ¬ (b ≤ 0) := not_le.mpr hb0
  have hqa : ¬ (b / ((1:ℚ)/2) ≤ 0) := by rw [not_le]; positivity
  have hqb : ¬ ((2:ℚ) * b ≤ 0) := by rw [not_le]; positivity
  have hqc : ¬ (b * 2 ≤ 0) := by rw [not_le]; positivity
  have hcoll : ¬ (collectLevels (fxC7Books t1 t2) (sideFor "buy") = []) := by
    simp [collectLevels, fxC7Books, sideFor, Book.sideOf]
  refine ⟨mkRoute b "buy" (finalState (fxC7Books t1 t2) b "buy"), ?_, ?_, ?_⟩
  · rw [findOptimalRoute, if_neg hnle, if_neg hcoll]
  · rw [c7_final t1 t2 b hb0 hb5]
    norm_num [mkRoute, consume, initState, hnle, min_eq_left hb5, hqa, hqb, hqc, bumpPlat]
  · rw [c7_final t1 t2 b hb0 hb5]
    norm_num [mkRoute, consume, initState, hnle, min_eq_left hb5, hqa, hqb, hqc]

unseal Rat.add Rat.mul Rat.sub Rat.inv in
/-- C7 witness: the tie scenario at depths 10 and 20 with budget 2. -/
theorem claim_C7_witness :
    ∃ r, findOptimalRoute (fxC7Books 10 20) 2 "buy" = Except.ok r ∧
      r.platforms_used = 1 ∧ r.fills.map Fill.platform = ["zzz"] :=
  claim_C7_tie_first_listed 10 20 2 (by decide) (by decide)
